import Mathlib

set_option linter.unusedSectionVars false

/-!
# Verification of the CLOCK-Pro cache (`clockpro` package)

This file gives a shallow embedding of the CLOCK-Pro cache replacement
implementation (files `clockpro.go` and `cache.go`) and proves/refutes the
frozen claims about it.

Modelling conventions:
* Go heap pages (`*page[K,V]`) are modelled by stable numeric identifiers
  (`Nat`); the store `pages : Nat → Page K V` maps an identifier to the
  current contents of the page record, and `nextId` is the allocator for
  fresh identifiers (a fresh Go allocation `&page{...}` becomes the fresh
  identifier `nextId`).
* A `circularList` (a `container/list.List` plus a hand element) is
  modelled as a `List Nat` of page identifiers read in circular order
  *starting at the hand*: the head of the list is the page under the hand,
  and successive elements follow the hand's scan order.  Under this
  reading, `insert` (splice just after the hand), `remove` (with the
  hand-adjustment on removing the hand itself) and `moveHand` have the
  purely functional forms `ringInsert`, `ringRemove` and `ringAdvance`
  below, which reproduce the pointer manipulations of the source exactly.
* The Go map `pageMap` is an association list `List (K × Nat)`; the number
  of keys in the Go map is the length of the list (keys are kept distinct).
* Go `int` is `Int`; Go integer division truncates toward zero, which is
  `Int.tdiv`. `capacity >> 1` on the (always positive, already clamped)
  capacity is `Int.tdiv capacity 2`.
* Go's zero value (`var zero V`) is `(default : V)` from `Inhabited V`.
* The `sync.RWMutex` in the `Cache` facade serializes calls; the public
  operations are therefore modelled as the plain sequential functions
  `Get`, `Put`, `SetSize` below, and a reachable state is any state
  produced by a sequence of complete public calls starting from `New`.
  The cosmetic `listID` field of `page` (never read on any decision path)
  is omitted.
* The facade in `cache.go` drives an engine value (`clockProState`) whose
  defining file is not under `src/`; its `Get`/`Put` bodies inline,
  verbatim, the state machine of `clock.touch` in `clockpro.go`, and its
  remaining engine calls (`makeSpace`, `evictColdPage`, `evictHotPage`,
  `maintainMetaCapacity`) correspond to `clock.makeSpace`, `clock.evictCold`,
  `clock.evictHot` and `clock.trimMeta` in `clockpro.go`, which is the
  engine the spec and the claims cite; the embedding uses those.
  `SetSize` delegates to the engine's `resize` (the fixed-point scaling of
  `clockpro.go`; `cache.go`'s inlined float variant differs only in the
  rounding of the scaled ratio, not in any clamping or eviction step).

Loops of the source are embedded with explicit fuel chosen at least as
large as the bound the loop itself enforces (`steps < maxSteps` loops) or
large enough that exhaustion is provably unreachable (`makeSpace`,
`resize`, `trimMeta`); exhaustion returns the current state, and the
theorems about those loops account for the fuel explicitly.
-/

namespace ClockPro

/-- `pageState` from `clockpro.go`: `stateCold` (non-resident metadata),
`stateHot`, `stateColdResident`. -/
inductive PageState where
  | cold
  | hot
  | coldResident
deriving DecidableEq, Repr

/-- The `page[K,V]` record (sans the intrusive links, which live in the
ring lists of the model, and the cosmetic `listID`). -/
structure Page (K V : Type) where
  key : K
  value : V
  state : PageState
  ref : Bool
  test : Bool
deriving DecidableEq, Repr

instance {K V : Type} [Inhabited K] [Inhabited V] : Inhabited (Page K V) :=
  ⟨⟨default, default, PageState.cold, false, false⟩⟩

/-- The `clock[K,V]` engine state (which also carries everything the
`Cache` facade observes).  Rings hold page identifiers in circular order
starting at the hand. -/
structure Clock (K V : Type) where
  pages : Nat → Page K V
  nextId : Nat
  hot : List Nat
  cold : List Nat
  meta : List Nat
  pageMap : List (K × Nat)
  capacity : Int
  hotCap : Int
  coldCap : Int
  metaCap : Int

variable {K V : Type} [DecidableEq K] [Inhabited K] [Inhabited V]

/-- Update the page store at one identifier. -/
def updFn (f : Nat → Page K V) (i : Nat) (p : Page K V) : Nat → Page K V :=
  fun j => if j = i then p else f j

/-- Go map lookup `pageMap[key]`. -/
def mapLookup (m : List (K × Nat)) (k : K) : Option Nat :=
  match m with
  | [] => none
  | (k', i) :: t => if k' = k then some i else mapLookup t k

/-- Go map `delete(pageMap, key)`. -/
def mapDelete (m : List (K × Nat)) (k : K) : List (K × Nat) :=
  m.filter (fun e => decide (e.1 ≠ k))

/-- `circularList.insert`: splice the page just after the hand (head of
the circular order); an empty ring makes the page the sole element and
the hand. -/
def ringInsert (r : List Nat) (i : Nat) : List Nat :=
  match r with
  | [] => [i]
  | h :: t => h :: i :: t

/-- `circularList.remove` for a page that carries a list element: if the
removed page is the hand, the hand advances to its successor; an emptied
ring has no hand. -/
def ringRemove (r : List Nat) (i : Nat) : List Nat :=
  match r with
  | [] => []
  | h :: t => if h = i then t else h :: t.erase i

/-- `circularList.moveHand`: advance the hand to its circular successor. -/
def ringAdvance (r : List Nat) : List Nat :=
  match r with
  | [] => []
  | h :: t => t ++ [h]

/-- `circularList.remove` in full, including the `p.elem == nil` guard at
its entry: a page holding no list element (`pElem = none`) is returned
unchanged together with the unchanged ring (the function silently
returns); otherwise the element is unlinked and the page's element
pointer is cleared. -/
def clRemove (r : List Nat) (pElem : Option Nat) : List Nat × Option Nat :=
  match pElem with
  | none => (r, none)
  | some i => (ringRemove r i, none)

/-- `newClock` (and `newClockProState`): clamp the capacity to at least 1,
give the hot ring half of it (at least 1), the cold ring the rest, and
the meta ring the full capacity. -/
def newClock (size : Int) : Clock K V :=
  let cap := if size ≤ 0 then 1 else size
  let h0 := Int.tdiv cap 2
  let h := if h0 = 0 then 1 else h0
  { pages := fun _ => default
    nextId := 0
    hot := []
    cold := []
    meta := []
    pageMap := []
    capacity := cap
    hotCap := h
    coldCap := cap - h
    metaCap := cap }

/-- `clock.adaptHot`: move one capacity unit between the hot and cold
budgets, within `1 ≤ hotCap` and `hotCap ≤ capacity - 1`; no-op at the
bounds. -/
def adaptHot (c : Clock K V) (increase : Bool) : Clock K V :=
  match increase with
  | true =>
    if c.hotCap < c.capacity - 1 then
      { c with hotCap := c.hotCap + 1, coldCap := c.coldCap - 1 }
    else c
  | false =>
    if 1 < c.hotCap then
      { c with hotCap := c.hotCap - 1, coldCap := c.coldCap + 1 }
    else c

/-- One pass of `clock.trimMeta`'s loop body, with fuel: while the meta
ring exceeds `metaCap`, remove the page under the meta hand and delete
its key from the lookup table. -/
def trimMetaAux : Clock K V → Nat → Clock K V
  | c, 0 => c
  | c, fuel + 1 =>
    if (c.meta.length : Int) > c.metaCap then
      match c.meta with
      | [] => c
      | v :: t =>
        trimMetaAux
          { c with meta := t, pageMap := mapDelete c.pageMap ((c.pages v).key) }
          fuel
    else c

/-- `clock.trimMeta`.  The loop removes one element per iteration, so
`meta.length` iterations always reach the loop's own exit condition. -/
def trimMeta (c : Clock K V) : Clock K V :=
  trimMetaAux c c.meta.length

/-- `clock.evictCold`'s scan loop.  The fuel is `maxSteps - steps`; the
third component of the result counts the executed steps (hand
advances). -/
def evictColdAux : Clock K V → Nat → Option Nat × Clock K V × Nat
  | c, 0 => (none, c, 0)
  | c, fuel + 1 =>
    match c.cold with
    | [] => (none, c, 0)
    | v :: _ =>
      let p := c.pages v
      let c1 : Clock K V := { c with cold := ringAdvance c.cold }
      if p.ref then
        let c2 : Clock K V :=
          { c1 with
              pages := updFn c1.pages v { p with ref := false, state := PageState.hot }
              cold := ringRemove c1.cold v
              hot := ringInsert c1.hot v }
        let r := evictColdAux c2 fuel
        (r.1, r.2.1, r.2.2 + 1)
      else
        let c2 : Clock K V :=
          { c1 with
              cold := ringRemove c1.cold v
              pageMap := mapDelete c1.pageMap p.key }
        if p.test then
          let c3 : Clock K V :=
            { c2 with
                pages := updFn c2.pages v
                  { p with value := default, state := PageState.cold, test := false }
                meta := ringInsert c2.meta v }
          (some v, trimMeta c3, 1)
        else
          (some v, c2, 1)

/-- `clock.evictCold`: bounded scan of the cold ring with
`maxSteps = 2 * cold.size`. -/
def evictCold (c : Clock K V) : Option Nat × Clock K V × Nat :=
  evictColdAux c (2 * c.cold.length)

/-- `clock.evictHot`'s scan loop, fuel and step count as in
`evictColdAux`. -/
def evictHotAux : Clock K V → Nat → Option Nat × Clock K V × Nat
  | c, 0 => (none, c, 0)
  | c, fuel + 1 =>
    match c.hot with
    | [] => (none, c, 0)
    | v :: _ =>
      let p := c.pages v
      let c1 : Clock K V := { c with hot := ringAdvance c.hot }
      if p.ref then
        let c2 : Clock K V := { c1 with pages := updFn c1.pages v { p with ref := false } }
        let r := evictHotAux c2 fuel
        (r.1, r.2.1, r.2.2 + 1)
      else
        let c2 : Clock K V := { c1 with hot := ringRemove c1.hot v }
        if (c2.cold.length : Int) < c2.coldCap then
          let c3 : Clock K V :=
            { c2 with
                pages := updFn c2.pages v
                  { p with state := PageState.coldResident, test := true, ref := false }
                cold := ringInsert c2.cold v }
          (some v, adaptHot c3 true, 1)
        else
          (some v, { c2 with pageMap := mapDelete c2.pageMap p.key }, 1)

/-- `clock.evictHot`: bounded scan of the hot ring with
`maxSteps = 2 * hot.size`. -/
def evictHot (c : Clock K V) : Option Nat × Clock K V × Nat :=
  evictHotAux c (2 * c.hot.length)

/-- `clock.makeSpace`'s loop body with fuel: while the resident rings
fill the capacity, evict from cold first, falling back to hot, and stop
when an eviction call yields no victim. -/
def makeSpaceAux : Clock K V → Nat → Clock K V
  | c, 0 => c
  | c, fuel + 1 =>
    if (c.hot.length + c.cold.length : Int) ≥ c.capacity then
      if c.cold.length > 0 then
        let r := evictCold c
        match r.1 with
        | none => r.2.1
        | some _ => makeSpaceAux r.2.1 fuel
      else if c.hot.length > 0 then
        let r := evictHot c
        match r.1 with
        | none => r.2.1
        | some _ => makeSpaceAux r.2.1 fuel
      else c
    else c

/-- `clock.makeSpace`.  Each loop iteration strictly decreases
`2 * hot.size + cold.size` (in any state the algorithm can reach), so
this fuel provably reaches the loop's own exit condition there. -/
def makeSpace (c : Clock K V) : Clock K V :=
  makeSpaceAux c (2 * c.hot.length + c.cold.length + 1)

/-- `clock.resize`'s eviction loop with fuel: while the resident rings
exceed the new size, evict cold-first with hot fallback, and stop when
neither ring yields a victim. -/
def resizeLoop (size : Int) : Clock K V → Nat → Clock K V
  | c, 0 => c
  | c, fuel + 1 =>
    if (c.hot.length + c.cold.length : Int) > size then
      if c.cold.length > 0 then
        let r := evictCold c
        match r.1 with
        | some _ => resizeLoop size r.2.1 fuel
        | none =>
          if r.2.1.hot.length > 0 then
            let r2 := evictHot r.2.1
            match r2.1 with
            | some _ => resizeLoop size r2.2.1 fuel
            | none => r2.2.1
          else r.2.1
      else if c.hot.length > 0 then
        let r2 := evictHot c
        match r2.1 with
        | some _ => resizeLoop size r2.2.1 fuel
        | none => r2.2.1
      else c
    else c

/-- `clock.resize`: clamp the new size to at least 1, rescale the hot
budget by the previous fixed-point hot ratio (raising a zero result to 1,
then capping at `size - 1`), mirror the rest onto the cold budget, set the
meta budget to the new size, evict down to the new size, and trim the
meta ring. -/
def resize (c : Clock K V) (size0 : Int) : Clock K V :=
  let size := if size0 ≤ 0 then 1 else size0
  let oldCap := c.capacity
  let ratio := Int.tdiv (c.hotCap * 1000) oldCap
  let nh0 := Int.tdiv (size * ratio) 1000
  let nh1 := if nh0 = 0 then 1 else nh0
  let nh := if nh1 ≥ size then size - 1 else nh1
  let c1 : Clock K V :=
    { c with capacity := size, hotCap := nh, coldCap := size - nh, metaCap := size }
  trimMeta (resizeLoop size c1 (2 * c1.hot.length + c1.cold.length + 1))

/-- `New` (cache facade): build a cache with the clamped capacity. -/
def New (size : Int) : Clock K V :=
  newClock size

/-- `Cache.Get` from `cache.go`: look the key up; on a hit run the
CLOCK-Pro touch transition for the page's state and report the stored
value, except that a non-resident ("ghost") hit re-admits the page but
reports a miss. -/
def Get (c : Clock K V) (k : K) : (V × Bool) × Clock K V :=
  match mapLookup c.pageMap k with
  | none => ((default, false), c)
  | some i =>
    let p := c.pages i
    match p.state with
    | PageState.hot =>
      ((p.value, true), { c with pages := updFn c.pages i { p with ref := true } })
    | PageState.coldResident =>
      if p.test then
        let c1 : Clock K V :=
          { c with
              pages := updFn c.pages i
                { p with state := PageState.hot, test := false, ref := true }
              cold := ringRemove c.cold i
              hot := ringInsert c.hot i }
        let c2 := if (c1.hot.length : Int) > c1.hotCap then adaptHot c1 false else c1
        ((p.value, true), c2)
      else
        ((p.value, true), { c with pages := updFn c.pages i { p with ref := true } })
    | PageState.cold =>
      let c1 := if p.test then adaptHot c true else c
      let c2 : Clock K V := { c1 with meta := ringRemove c1.meta i }
      let c3 := makeSpace c2
      let c4 : Clock K V :=
        { c3 with
            pages := updFn c3.pages i
              { c3.pages i with state := PageState.hot, test := false, ref := true }
            hot := ringInsert c3.hot i }
      ((default, false), c4)

/-- `Cache.Put` from `cache.go`: overwrite and re-touch an existing key,
or make space and admit a new key as a cold-resident test page. -/
def Put (c : Clock K V) (k : K) (v : V) : Clock K V :=
  match mapLookup c.pageMap k with
  | some i =>
    let p := { c.pages i with value := v }
    let c0 : Clock K V := { c with pages := updFn c.pages i p }
    match p.state with
    | PageState.hot =>
      { c0 with pages := updFn c0.pages i { p with ref := true } }
    | PageState.coldResident =>
      if p.test then
        let c1 : Clock K V :=
          { c0 with
              pages := updFn c0.pages i
                { p with state := PageState.hot, test := false, ref := true }
              cold := ringRemove c0.cold i
              hot := ringInsert c0.hot i }
        if (c1.hot.length : Int) > c1.hotCap then adaptHot c1 false else c1
      else
        { c0 with pages := updFn c0.pages i { p with ref := true } }
    | PageState.cold =>
      let c1 := if p.test then adaptHot c0 true else c0
      let c2 : Clock K V := { c1 with meta := ringRemove c1.meta i }
      let c3 := makeSpace c2
      { c3 with
          pages := updFn c3.pages i
            { c3.pages i with state := PageState.hot, test := false, ref := true }
          hot := ringInsert c3.hot i }
  | none =>
    let c1 := makeSpace c
    let newP : Page K V :=
      { key := k, value := v, state := PageState.coldResident, ref := false, test := true }
    { c1 with
        pages := updFn c1.pages c1.nextId newP
        pageMap := (k, c1.nextId) :: c1.pageMap
        cold := ringInsert c1.cold c1.nextId
        nextId := c1.nextId + 1 }

/-- `Cache.SetSize`: adjust the total capacity through the engine's
resize. -/
def SetSize (c : Clock K V) (size : Int) : Clock K V :=
  resize c size

/-- A complete public operation on the cache. -/
inductive Op (K V : Type) where
  | get : K → Op K V
  | put : K → V → Op K V
  | setSize : Int → Op K V

/-- Apply one public operation (discarding `Get`'s returned value). -/
def applyOp (c : Clock K V) : Op K V → Clock K V
  | Op.get k => (Get c k).2
  | Op.put k v => Put c k v
  | Op.setSize n => SetSize c n

/-- Run a sequence of public operations. -/
def runOps (c : Clock K V) (ops : List (Op K V)) : Clock K V :=
  ops.foldl applyOp c

/-- A cache state is reachable when some sequence of complete public
calls starting from `New` produces it. -/
def Reachable (c : Clock K V) : Prop :=
  ∃ (n : Int) (ops : List (Op K V)), c = runOps (newClock n) ops

/-! ## Helper lemmas about the store, the lookup table and the rings -/

@[simp] lemma updFn_same (f : Nat → Page K V) (i : Nat) (p : Page K V) :
    updFn f i p i = p := by
  simp [updFn]

lemma updFn_ne (f : Nat → Page K V) (i : Nat) (p : Page K V) {j : Nat} (h : j ≠ i) :
    updFn f i p j = f j := by
  simp [updFn, h]

lemma mapLookup_mem {m : List (K × Nat)} {k : K} {i : Nat}
    (h : mapLookup m k = some i) : (k, i) ∈ m := by
  induction m with
  | nil => simp [mapLookup] at h
  | cons e t ih =>
    obtain ⟨k', i'⟩ := e
    by_cases hk : k' = k
    · subst hk
      simp [mapLookup] at h
      simp [h]
    · simp [mapLookup, hk] at h
      exact List.mem_cons_of_mem _ (ih h)

lemma mapLookup_eq_none {m : List (K × Nat)} {k : K} :
    mapLookup m k = none ↔ ∀ e ∈ m, e.1 ≠ k := by
  induction m with
  | nil => simp [mapLookup]
  | cons e t ih =>
    obtain ⟨k', i'⟩ := e
    by_cases hk : k' = k
    · subst hk
      simp [mapLookup]
    · simp [mapLookup, hk, ih]

lemma mem_mapDelete {m : List (K × Nat)} {k : K} {e : K × Nat} :
    e ∈ mapDelete m k ↔ e ∈ m ∧ e.1 ≠ k := by
  simp [mapDelete, List.mem_filter]

lemma mapDelete_subset {m : List (K × Nat)} {k : K} {e : K × Nat}
    (h : e ∈ mapDelete m k) : e ∈ m :=
  (mem_mapDelete.mp h).1

lemma mapDelete_keys_sublist (m : List (K × Nat)) (k : K) :
    List.Sublist ((mapDelete m k).map Prod.fst) (m.map Prod.fst) :=
  (List.filter_sublist m).map Prod.fst

lemma mapDelete_keys_nodup {m : List (K × Nat)} (h : (m.map Prod.fst).Nodup) (k : K) :
    ((mapDelete m k).map Prod.fst).Nodup :=
  (mapDelete_keys_sublist m k).nodup h

@[simp] lemma mapLookup_cons_self (m : List (K × Nat)) (k : K) (i : Nat) :
    mapLookup ((k, i) :: m) k = some i := by
  simp [mapLookup]

lemma mem_ringInsert {r : List Nat} {i a : Nat} :
    a ∈ ringInsert r i ↔ a = i ∨ a ∈ r := by
  cases r with
  | nil => simp [ringInsert]
  | cons h t =>
    simp [ringInsert, List.mem_cons]
    tauto

@[simp] lemma length_ringInsert (r : List Nat) (i : Nat) :
    (ringInsert r i).length = r.length + 1 := by
  cases r <;> simp [ringInsert]

lemma ringInsert_perm (r : List Nat) (i : Nat) :
    List.Perm (ringInsert r i) (i :: r) := by
  cases r with
  | nil => simp [ringInsert]
  | cons h t => exact List.Perm.swap i h t

lemma mem_ringAdvance {r : List Nat} {a : Nat} :
    a ∈ ringAdvance r ↔ a ∈ r := by
  cases r with
  | nil => simp [ringAdvance]
  | cons h t =>
    simp [ringAdvance, List.mem_cons]
    tauto

lemma ringAdvance_perm (r : List Nat) : List.Perm (ringAdvance r) r := by
  cases r with
  | nil => simp [ringAdvance]
  | cons h t => exact List.perm_append_singleton h t

lemma ringRemove_subset {r : List Nat} {i a : Nat} (h : a ∈ ringRemove r i) : a ∈ r := by
  cases r with
  | nil => simp [ringRemove] at h
  | cons h' t =>
    by_cases he : h' = i
    · simp [ringRemove, he] at h
      exact List.mem_cons_of_mem _ h
    · simp [ringRemove, he, List.mem_cons] at h
      rcases h with h | h
      · simp [h]
      · exact List.mem_cons_of_mem _ (List.erase_subset _ _ h)

lemma mem_ringRemove_of_ne {r : List Nat} {i a : Nat} (ha : a ∈ r) (hne : a ≠ i) :
    a ∈ ringRemove r i := by
  cases r with
  | nil => simp at ha
  | cons h' t =>
    by_cases he : h' = i
    · subst he
      simp [ringRemove]
      rcases List.mem_cons.mp ha with h | h
      · exact absurd h hne
      · exact h
    · simp [ringRemove, he, List.mem_cons]
      rcases List.mem_cons.mp ha with h | h
      · exact Or.inl h
      · exact Or.inr ((List.mem_erase_of_ne hne).mpr h)

lemma ringRemove_sublist (r : List Nat) (i : Nat) :
    List.Sublist (ringRemove r i) r := by
  cases r with
  | nil => simp [ringRemove]
  | cons h' t =>
    by_cases he : h' = i
    · rw [ringRemove, if_pos he]
      exact List.Sublist.cons h' (List.Sublist.refl t)
    · rw [ringRemove, if_neg he]
      exact List.Sublist.cons₂ h' (List.erase_sublist i t)

lemma ringRemove_nodup {r : List Nat} (h : r.Nodup) (i : Nat) :
    (ringRemove r i).Nodup :=
  (ringRemove_sublist r i).nodup h

lemma not_mem_ringRemove {r : List Nat} (h : r.Nodup) (i : Nat) :
    i ∉ ringRemove r i := by
  cases r with
  | nil => simp [ringRemove]
  | cons h' t =>
    by_cases he : h' = i
    · subst he
      simp [ringRemove]
      exact (List.nodup_cons.mp h).1
    · simp [ringRemove, he, List.mem_cons]
      push_neg
      refine ⟨fun hc => he hc.symm, ?_⟩
      exact (List.nodup_cons.mp h).2.not_mem_erase

lemma length_ringRemove_mem {r : List Nat} {i : Nat} (h : i ∈ r) :
    (ringRemove r i).length + 1 = r.length := by
  cases r with
  | nil => simp at h
  | cons h' t =>
    by_cases he : h' = i
    · simp [ringRemove, he]
    · have ht : i ∈ t := by
        rcases List.mem_cons.mp h with hc | hc
        · exact absurd hc.symm he
        · exact hc
      have h2 := List.length_pos_of_mem ht
      simp [ringRemove, he, List.length_erase_of_mem ht]
      omega

lemma ringAdvance_remove_head {v : Nat} {t : List Nat} (h : v ∉ t) :
    ringRemove (ringAdvance (v :: t)) v = t := by
  cases t with
  | nil => simp [ringAdvance, ringRemove]
  | cons h' t' =>
    have hh : h' ≠ v := by
      intro hc
      exact h (by simp [hc])
    have hv' : v ∉ t' := fun hc => h (by simp [hc])
    simp only [ringAdvance, List.cons_append]
    simp [ringRemove, hh, List.erase_append_right [v] hv',
      List.erase_cons_head]

/-! ## The structural invariant of reachable engine states -/

/-- The structural invariant: ring membership is duplicate-free and
matches the page states, the lookup table points (under the matching key)
at pages of the two resident rings, all ring members are allocated
identifiers, and the capacity bookkeeping is consistent.  (Deliberately
*not* included: meta pages being present in the lookup table — the code
deletes their keys on eviction — and the lookup table covering the
resident rings — a stale meta page with a re-inserted key can collaterally
delete a live table entry in `trimMeta`.) -/
structure SInv (c : Clock K V) : Prop where
  nodupAll : (c.hot ++ c.cold ++ c.meta).Nodup
  hotState : ∀ i ∈ c.hot, (c.pages i).state = PageState.hot
  coldState : ∀ i ∈ c.cold,
    (c.pages i).state = PageState.coldResident ∧
      (c.pages i).test = true ∧ (c.pages i).ref = false
  metaState : ∀ i ∈ c.meta, (c.pages i).state = PageState.cold
  mapRing : ∀ e ∈ c.pageMap, (e.2 ∈ c.hot ∨ e.2 ∈ c.cold) ∧ (c.pages e.2).key = e.1
  mapKeys : (c.pageMap.map Prod.fst).Nodup
  fresh : ∀ i ∈ c.hot ++ c.cold ++ c.meta, i < c.nextId
  capPos : 1 ≤ c.capacity
  capSum : c.hotCap + c.coldCap = c.capacity
  hotCapNN : 0 ≤ c.hotCap
  metaCapEq : c.metaCap = c.capacity

/-- Residency bound: the two resident rings fit in the capacity. -/
def ResB (c : Clock K V) : Prop :=
  (c.hot.length + c.cold.length : Int) ≤ c.capacity

/-- Meta bound: the meta ring fits in its budget. -/
def MetaB (c : Clock K V) : Prop :=
  (c.meta.length : Int) ≤ c.metaCap

/-- The full invariant of states after complete public calls. -/
def Inv (c : Clock K V) : Prop :=
  SInv c ∧ ResB c ∧ MetaB c

namespace SInv

variable {c : Clock K V}

lemma hotColdNodup (h : SInv c) : (c.hot ++ c.cold).Nodup := by
  have := h.nodupAll
  rw [List.nodup_append] at this
  exact this.1

lemma hotNodup (h : SInv c) : c.hot.Nodup := by
  have := h.hotColdNodup
  rw [List.nodup_append] at this
  exact this.1

lemma coldNodup (h : SInv c) : c.cold.Nodup := by
  have := h.hotColdNodup
  rw [List.nodup_append] at this
  exact this.2.1

lemma metaNodup (h : SInv c) : c.meta.Nodup := by
  have := h.nodupAll
  rw [List.nodup_append] at this
  exact this.2.1

lemma hot_not_cold (h : SInv c) {i : Nat} (hi : i ∈ c.hot) : i ∉ c.cold := by
  have := h.hotColdNodup
  rw [List.nodup_append] at this
  exact this.2.2 hi

lemma cold_not_hot (h : SInv c) {i : Nat} (hi : i ∈ c.cold) : i ∉ c.hot :=
  fun hh => h.hot_not_cold hh hi

lemma resident_not_meta (h : SInv c) {i : Nat} (hi : i ∈ c.hot ++ c.cold) : i ∉ c.meta := by
  have := h.nodupAll
  rw [List.nodup_append] at this
  exact this.2.2 hi

lemma hot_not_meta (h : SInv c) {i : Nat} (hi : i ∈ c.hot) : i ∉ c.meta :=
  h.resident_not_meta (List.mem_append_left _ hi)

lemma cold_not_meta (h : SInv c) {i : Nat} (hi : i ∈ c.cold) : i ∉ c.meta :=
  h.resident_not_meta (List.mem_append_right _ hi)

lemma meta_not_hot (h : SInv c) {i : Nat} (hi : i ∈ c.meta) : i ∉ c.hot :=
  fun hh => h.hot_not_meta hh hi

lemma meta_not_cold (h : SInv c) {i : Nat} (hi : i ∈ c.meta) : i ∉ c.cold :=
  fun hh => h.cold_not_meta hh hi

lemma hotMem_state (h : SInv c) {i : Nat} (hi : i ∈ c.hot) :
    (c.pages i).state = PageState.hot := h.hotState i hi

lemma coldMem_state (h : SInv c) {i : Nat} (hi : i ∈ c.cold) :
    (c.pages i).state = PageState.coldResident := (h.coldState i hi).1

end SInv

/-! ## Behaviour of `trimMeta` -/

lemma trimMetaAux_frame (fuel : Nat) : ∀ (c : Clock K V),
    (trimMetaAux c fuel).hot = c.hot ∧
    (trimMetaAux c fuel).cold = c.cold ∧
    (trimMetaAux c fuel).pages = c.pages ∧
    (trimMetaAux c fuel).capacity = c.capacity ∧
    (trimMetaAux c fuel).hotCap = c.hotCap ∧
    (trimMetaAux c fuel).coldCap = c.coldCap ∧
    (trimMetaAux c fuel).metaCap = c.metaCap ∧
    (trimMetaAux c fuel).nextId = c.nextId ∧
    (∀ e ∈ (trimMetaAux c fuel).pageMap, e ∈ c.pageMap) ∧
    List.Sublist (trimMetaAux c fuel).meta c.meta := by
  induction fuel with
  | zero =>
    intro c
    exact ⟨rfl, rfl, rfl, rfl, rfl, rfl, rfl, rfl, fun e he => he, List.Sublist.refl _⟩
  | succ n ih =>
    intro c
    rw [trimMetaAux]
    by_cases hg : (c.meta.length : Int) > c.metaCap
    · rw [if_pos hg]
      cases hm : c.meta with
      | nil =>
        exact ⟨rfl, rfl, rfl, rfl, rfl, rfl, rfl, rfl, fun e he => he, by simp [hm]⟩
      | cons v t =>
        obtain ⟨h1, h2, h3, h4, h5, h6, h7, h8, h9, h10⟩ :=
          ih { c with meta := t, pageMap := mapDelete c.pageMap ((c.pages v).key) }
        refine ⟨h1, h2, h3, h4, h5, h6, h7, h8, ?_, ?_⟩
        · exact fun e he => mapDelete_subset (h9 e he)
        · exact h10.trans (List.Sublist.cons v (List.Sublist.refl t))
    · rw [if_neg hg]
      exact ⟨rfl, rfl, rfl, rfl, rfl, rfl, rfl, rfl, fun e he => he, List.Sublist.refl _⟩

lemma trimMetaAux_len (fuel : Nat) : ∀ (c : Clock K V), 0 ≤ c.metaCap →
    c.meta.length ≤ fuel → ((trimMetaAux c fuel).meta.length : Int) ≤ c.metaCap := by
  induction fuel with
  | zero =>
    intro c h0 hlen
    have : c.meta = [] := List.length_eq_zero.mp (Nat.le_zero.mp hlen)
    simp only [trimMetaAux, this]
    simpa using h0
  | succ n ih =>
    intro c h0 hlen
    rw [trimMetaAux]
    by_cases hg : (c.meta.length : Int) > c.metaCap
    · rw [if_pos hg]
      cases hm : c.meta with
      | nil => rw [hm] at hg; simp at hg; omega
      | cons v t =>
        have := ih { c with meta := t, pageMap := mapDelete c.pageMap ((c.pages v).key) }
          h0 (by rw [hm] at hlen; simpa using Nat.le_of_succ_le_succ hlen)
        exact this
    · rw [if_neg hg]
      omega

lemma trimMetaAux_noop (fuel : Nat) (c : Clock K V)
    (h : ¬((c.meta.length : Int) > c.metaCap)) : trimMetaAux c fuel = c := by
  cases fuel <;> simp [trimMetaAux, h]

lemma trimMetaAux_sinv (fuel : Nat) : ∀ (c : Clock K V), SInv c →
    SInv (trimMetaAux c fuel) := by
  induction fuel with
  | zero => intro c h; simpa only [trimMetaAux] using h
  | succ n ih =>
    intro c h
    rw [trimMetaAux]
    by_cases hg : (c.meta.length : Int) > c.metaCap
    · rw [if_pos hg]
      cases hm : c.meta with
      | nil => exact h
      | cons v t =>
        apply ih
        have hsub : List.Sublist ((c.hot ++ c.cold) ++ t) ((c.hot ++ c.cold) ++ (v :: t)) :=
          (List.Sublist.cons v (List.Sublist.refl t)).append_left (c.hot ++ c.cold)
        exact {
          nodupAll := hsub.nodup (by rw [← hm]; exact h.nodupAll)
          hotState := h.hotState
          coldState := h.coldState
          metaState := fun i hi => h.metaState i (by rw [hm]; exact List.mem_cons_of_mem _ hi)
          mapRing := fun e he => h.mapRing e (mapDelete_subset he)
          mapKeys := mapDelete_keys_nodup h.mapKeys _
          fresh := fun i hi => h.fresh i (by
            rw [hm]
            rcases List.mem_append.mp hi with hi' | hi'
            · exact List.mem_append_left _ hi'
            · exact List.mem_append_right _ (List.mem_cons_of_mem _ hi'))
          capPos := h.capPos
          capSum := h.capSum
          hotCapNN := h.hotCapNN
          metaCapEq := h.metaCapEq }
    · rw [if_neg hg]
      exact h

lemma trimMeta_sinv {c : Clock K V} (h : SInv c) : SInv (trimMeta c) :=
  trimMetaAux_sinv _ c h

lemma trimMeta_metaB (c : Clock K V) (h : 0 ≤ c.metaCap) : MetaB (trimMeta c) := by
  have hlen := trimMetaAux_len c.meta.length c h (Nat.le_refl _)
  have hcap := (trimMetaAux_frame c.meta.length c).2.2.2.2.2.2.1
  unfold MetaB trimMeta
  rw [hcap]
  exact hlen

lemma trimMeta_frame (c : Clock K V) :
    (trimMeta c).hot = c.hot ∧
    (trimMeta c).cold = c.cold ∧
    (trimMeta c).pages = c.pages ∧
    (trimMeta c).capacity = c.capacity ∧
    (trimMeta c).hotCap = c.hotCap ∧
    (trimMeta c).coldCap = c.coldCap ∧
    (trimMeta c).metaCap = c.metaCap ∧
    (trimMeta c).nextId = c.nextId ∧
    (∀ e ∈ (trimMeta c).pageMap, e ∈ c.pageMap) ∧
    List.Sublist (trimMeta c).meta c.meta :=
  trimMetaAux_frame c.meta.length c

lemma trimMeta_noop (c : Clock K V) (h : (c.meta.length : Int) ≤ c.metaCap) :
    trimMeta c = c :=
  trimMetaAux_noop _ c (by omega)

/-! ## Behaviour of `adaptHot` -/

lemma adaptHot_frame (c : Clock K V) (b : Bool) :
    (adaptHot c b).pages = c.pages ∧
    (adaptHot c b).hot = c.hot ∧
    (adaptHot c b).cold = c.cold ∧
    (adaptHot c b).meta = c.meta ∧
    (adaptHot c b).pageMap = c.pageMap ∧
    (adaptHot c b).capacity = c.capacity ∧
    (adaptHot c b).metaCap = c.metaCap ∧
    (adaptHot c b).nextId = c.nextId ∧
    (adaptHot c b).hotCap + (adaptHot c b).coldCap = c.hotCap + c.coldCap ∧
    (0 ≤ c.hotCap → 0 ≤ (adaptHot c b).hotCap) := by
  cases b <;> rw [adaptHot] <;> split
  all_goals
    refine ⟨rfl, rfl, rfl, rfl, rfl, rfl, rfl, rfl, ?_, ?_⟩ <;> dsimp only <;> omega

lemma adaptHot_hotCap_true (c : Clock K V) :
    c.hotCap ≤ (adaptHot c true).hotCap ∧
    (adaptHot c true).hotCap ≤ max c.hotCap (c.capacity - 1) := by
  rw [adaptHot]
  split
  · constructor
    · dsimp only; omega
    · dsimp only
      rename_i hlt
      omega
  · constructor
    · omega
    · exact le_max_left _ _

lemma adaptHot_sinv {c : Clock K V} (h : SInv c) (b : Bool) : SInv (adaptHot c b) := by
  have hsum := h.capSum
  have hnn := h.hotCapNN
  cases b <;> rw [adaptHot] <;> split
  case _ hlt =>
    exact { h with
      capSum := by dsimp only; omega
      hotCapNN := by dsimp only; omega }
  case _ => exact h
  case _ hlt =>
    exact { h with
      capSum := by dsimp only; omega
      hotCapNN := by dsimp only; omega }
  case _ => exact h

/-! ## Behaviour of `evictCold` under the invariant -/

/-- In a state whose cold ring satisfies the cold-page flag invariant
(`ref = false`, `test = true` under the hand), `evictCold` evicts the
page under the hand in a single step, moving it (payload cleared, test
flag cleared, reclassified non-resident) into the meta ring and deleting
its key from the lookup table, then trimming the meta ring. -/
lemma evictCold_eq_of (c : Clock K V) (v : Nat) (t : List Nat) (hc : c.cold = v :: t)
    (hvt : v ∉ t) (pref : (c.pages v).ref = false) (ptest : (c.pages v).test = true) :
    evictCold c = (some v, trimMeta
      { c with
          pages := updFn c.pages v
            { c.pages v with value := default, state := PageState.cold, test := false }
          cold := t
          meta := ringInsert c.meta v
          pageMap := mapDelete c.pageMap ((c.pages v).key) }, 1) := by
  rw [evictCold, hc]
  have hf : 2 * (v :: t).length = 2 * t.length + 1 + 1 := by
    simp [List.length_cons]
    ring
  rw [hf, evictColdAux]
  simp only [hc]
  simp [pref, ptest, ringAdvance_remove_head hvt]

/-- The one-step target state of `evictCold` (before the meta trim). -/
def evictColdStep (c : Clock K V) (v : Nat) (t : List Nat) : Clock K V :=
  { c with
      pages := updFn c.pages v
        { c.pages v with value := default, state := PageState.cold, test := false }
      cold := t
      meta := ringInsert c.meta v
      pageMap := mapDelete c.pageMap ((c.pages v).key) }

lemma evictColdStep_sinv {c : Clock K V} (hs : SInv c) {v : Nat} {t : List Nat}
    (hc : c.cold = v :: t) : SInv (evictColdStep c v t) := by
  have hvc : v ∈ c.cold := by rw [hc]; exact List.mem_cons_self v t
  have hvt : v ∉ t := by
    have := hs.coldNodup
    rw [hc] at this
    exact (List.nodup_cons.mp this).1
  have hvhot : v ∉ c.hot := hs.cold_not_hot hvc
  have hvmeta : v ∉ c.meta := hs.cold_not_meta hvc
  refine {
    nodupAll := ?_
    hotState := ?_
    coldState := ?_
    metaState := ?_
    mapRing := ?_
    mapKeys := ?_
    fresh := ?_
    capPos := hs.capPos
    capSum := hs.capSum
    hotCapNN := hs.hotCapNN
    metaCapEq := hs.metaCapEq }
  · dsimp only [evictColdStep]
    have p1 : List.Perm ((c.hot ++ t) ++ ringInsert c.meta v)
        (v :: ((c.hot ++ t) ++ c.meta)) :=
      ((ringInsert_perm c.meta v).append_left (c.hot ++ t)).trans List.perm_middle
    have p2 : List.Perm ((c.hot ++ (v :: t)) ++ c.meta)
        (v :: ((c.hot ++ t) ++ c.meta)) :=
      List.perm_middle.append_right c.meta
    have h0 := hs.nodupAll
    rw [hc] at h0
    exact p1.nodup_iff.mpr (p2.nodup_iff.mp h0)
  · intro i hi
    dsimp only [evictColdStep] at hi ⊢
    have hne : i ≠ v := fun he => hvhot (he ▸ hi)
    rw [updFn_ne _ _ _ hne]
    exact hs.hotState i hi
  · intro i hi
    dsimp only [evictColdStep] at hi ⊢
    have hne : i ≠ v := fun he => hvt (he ▸ hi)
    rw [updFn_ne _ _ _ hne]
    exact hs.coldState i (by rw [hc]; exact List.mem_cons_of_mem _ hi)
  · intro i hi
    dsimp only [evictColdStep] at hi ⊢
    rcases mem_ringInsert.mp hi with he | hm
    · subst he
      rw [updFn_same]
    · have hne : i ≠ v := fun he => hvmeta (he ▸ hm)
      rw [updFn_ne _ _ _ hne]
      exact hs.metaState i hm
  · intro e he
    dsimp only [evictColdStep] at he ⊢
    obtain ⟨hemem, hekey⟩ := mem_mapDelete.mp he
    obtain ⟨hring, hkey⟩ := hs.mapRing e hemem
    have hne : e.2 ≠ v := by
      intro hev
      exact hekey (by rw [← hkey, hev])
    rw [updFn_ne _ _ _ hne]
    refine ⟨?_, hkey⟩
    rcases hring with hh | hcold
    · exact Or.inl hh
    · right
      rw [hc] at hcold
      rcases List.mem_cons.mp hcold with he' | ht'
      · exact absurd he' hne
      · exact ht'
  · dsimp only [evictColdStep]
    exact mapDelete_keys_nodup hs.mapKeys _
  · intro i hi
    dsimp only [evictColdStep] at hi
    apply hs.fresh
    rcases List.mem_append.mp hi with hi' | hi'
    · rcases List.mem_append.mp hi' with hh | ht'
      · exact List.mem_append_left _ (List.mem_append_left _ hh)
      · exact List.mem_append_left _
          (List.mem_append_right _ (hc ▸ List.mem_cons_of_mem _ ht'))
    · rcases mem_ringInsert.mp hi' with he | hm
      · exact he ▸ List.mem_append_left _ (List.mem_append_right _ hvc)
      · exact List.mem_append_right _ hm

lemma evictCold_spec {c : Clock K V} (hs : SInv c) {v : Nat} {t : List Nat}
    (hc : c.cold = v :: t) :
    ∃ c', evictCold c = (some v, c', 1) ∧
      SInv c' ∧ MetaB c' ∧
      c'.hot = c.hot ∧ c'.cold = t ∧
      c'.capacity = c.capacity ∧ c'.hotCap = c.hotCap ∧ c'.coldCap = c.coldCap ∧
      c'.metaCap = c.metaCap ∧ c'.nextId = c.nextId ∧
      (∀ e ∈ c'.pageMap, e ∈ c.pageMap) ∧
      (c'.pages v).test = false ∧ (c'.pages v).state = PageState.cold := by
  have hvc : v ∈ c.cold := by rw [hc]; exact List.mem_cons_self v t
  have hvt : v ∉ t := by
    have := hs.coldNodup
    rw [hc] at this
    exact (List.nodup_cons.mp this).1
  obtain ⟨hst, htst, href⟩ := hs.coldState v hvc
  have heq := evictCold_eq_of c v t hc hvt href htst
  have hs3 : SInv (evictColdStep c v t) := evictColdStep_sinv hs hc
  have h0cap : 0 ≤ (evictColdStep c v t).metaCap := by
    have h1 := hs.capPos
    have h2 := hs.metaCapEq
    dsimp only [evictColdStep]
    omega
  obtain ⟨f1, f2, f3, f4, f5, f6, f7, f8, f9, f10⟩ := trimMeta_frame (evictColdStep c v t)
  have hpv : (evictColdStep c v t).pages v =
      { c.pages v with value := default, state := PageState.cold, test := false } := by
    dsimp only [evictColdStep]
    rw [updFn_same]
  refine ⟨trimMeta (evictColdStep c v t), heq, trimMetaAux_sinv _ _ hs3,
    trimMeta_metaB _ h0cap, f1, f2, f4, f5, f6, f7, f8,
    ?_, ?_, ?_⟩
  · exact fun e he => mapDelete_subset (f9 e he)
  · rw [f3, hpv]
  · rw [f3, hpv]

lemma trimMeta_tail (c : Clock K V) (h0 : 0 ≤ c.metaCap)
    (hlen : (c.meta.length : Int) = c.metaCap + 1) :
    ∃ v0 t0, c.meta = v0 :: t0 ∧ (trimMeta c).meta = t0 := by
  cases hm : c.meta with
  | nil =>
    rw [hm] at hlen
    simp at hlen
    omega
  | cons v0 t0 =>
    refine ⟨v0, t0, rfl, ?_⟩
    have hlen' : c.meta.length = t0.length + 1 := by rw [hm]; simp
    unfold trimMeta
    rw [hlen', trimMetaAux]
    have hguard : (c.meta.length : Int) > c.metaCap := by omega
    rw [if_pos hguard]
    simp only [hm]
    have hnoop := trimMetaAux_noop t0.length
      ({ c with meta := t0, pageMap := mapDelete c.pageMap ((c.pages v0).key) } : Clock K V)
      (by dsimp only; omega)
    rw [hnoop]

lemma evictCold_meta_mem {c : Clock K V} (hs : SInv c) (hmB : MetaB c)
    {v : Nat} {t : List Nat} (hc : c.cold = v :: t) :
    v ∈ (evictCold c).2.1.meta := by
  have hvc : v ∈ c.cold := by rw [hc]; exact List.mem_cons_self v t
  have hvt : v ∉ t := by
    have := hs.coldNodup
    rw [hc] at this
    exact (List.nodup_cons.mp this).1
  obtain ⟨hst, htst, href⟩ := hs.coldState v hvc
  rw [evictCold_eq_of c v t hc hvt href htst]
  have hmetacs : (evictColdStep c v t).meta = ringInsert c.meta v := rfl
  have hcapcs : (evictColdStep c v t).metaCap = c.metaCap := rfl
  have hcap1 : 1 ≤ c.metaCap := by
    have h1 := hs.capPos
    have h2 := hs.metaCapEq
    omega
  show v ∈ (trimMeta (evictColdStep c v t)).meta
  by_cases hof : ((evictColdStep c v t).meta.length : Int) ≤ (evictColdStep c v t).metaCap
  · rw [trimMeta_noop _ hof, hmetacs]
    exact mem_ringInsert.mpr (Or.inl rfl)
  · rw [hmetacs, hcapcs] at hof
    have hmlen : ((evictColdStep c v t).meta.length : Int) =
        (evictColdStep c v t).metaCap + 1 := by
      rw [hmetacs, hcapcs, length_ringInsert]
      unfold MetaB at hmB
      rw [length_ringInsert] at hof
      push_cast at hof ⊢
      omega
    obtain ⟨v0, t0, hsplit, htail⟩ :=
      trimMeta_tail (evictColdStep c v t) (by rw [hcapcs]; omega) hmlen
    rw [htail]
    rw [hmetacs] at hsplit
    cases hm : c.meta with
    | nil =>
      exfalso
      rw [hm] at hof
      simp [ringInsert] at hof
      omega
    | cons h1 t1 =>
      rw [hm] at hsplit
      simp only [ringInsert, List.cons.injEq] at hsplit
      rw [← hsplit.2]
      exact List.mem_cons_self v t1

/-! ## Behaviour of `evictHot` under the invariant -/

/-- Number of hot pages whose reference flag is set. -/
def refCount (c : Clock K V) : Nat :=
  (c.hot.filter (fun i => (c.pages i).ref)).length

lemma refCount_le (c : Clock K V) : refCount c ≤ c.hot.length :=
  List.length_filter_le _ _

/-- The state after `evictHot` gives the page under the hand a second
chance: reference flag cleared, hand advanced. -/
def hotScanStep (c : Clock K V) (v : Nat) : Clock K V :=
  { c with
      hot := ringAdvance c.hot
      pages := updFn c.pages v { c.pages v with ref := false } }

/-- The state after `evictHot` demotes the victim into the cold ring
(`t` is the hot ring without the victim). -/
def hotDemoteStep (c : Clock K V) (v : Nat) (t : List Nat) : Clock K V :=
  { c with
      hot := t
      pages := updFn c.pages v
        { c.pages v with state := PageState.coldResident, test := true, ref := false }
      cold := ringInsert c.cold v }

/-- The state after `evictHot` evicts the victim outright (`t` is the hot
ring without the victim). -/
def hotDeleteStep (c : Clock K V) (v : Nat) (t : List Nat) : Clock K V :=
  { c with
      hot := t
      pageMap := mapDelete c.pageMap ((c.pages v).key) }

lemma evictHotAux_spec : ∀ (fuel : Nat) (c : Clock K V), SInv c → c.hot ≠ [] →
    refCount c < fuel →
    ∃ v c' n, evictHotAux c fuel = (some v, c', n) ∧
      SInv c' ∧
      c'.hot.length + 1 = c.hot.length ∧
      (c'.cold.length = c.cold.length ∨ c'.cold.length = c.cold.length + 1) ∧
      c'.meta = c.meta ∧ c'.metaCap = c.metaCap ∧
      c'.capacity = c.capacity ∧ c'.nextId = c.nextId ∧
      (∀ e ∈ c'.pageMap, e ∈ c.pageMap) ∧
      c.hotCap ≤ c'.hotCap ∧ c'.hotCap ≤ max c.hotCap (c.capacity - 1) := by
  intro fuel
  induction fuel with
  | zero => intro c _ _ habs; omega
  | succ n ih =>
    intro c hs hne hcnt
    cases hh : c.hot with
    | nil => exact absurd hh hne
    | cons v t =>
      have hvh : v ∈ c.hot := by rw [hh]; exact List.mem_cons_self v t
      have hvt : v ∉ t := by
        have := hs.hotNodup
        rw [hh] at this
        exact (List.nodup_cons.mp this).1
      have hvcold : v ∉ c.cold := hs.hot_not_cold hvh
      have hvmeta : v ∉ c.meta := hs.hot_not_meta hvh
      by_cases pref : (c.pages v).ref
      · -- second-chance branch: clear the flag and keep scanning
        have hstep : evictHotAux c (n + 1) =
            ((evictHotAux (hotScanStep c v) n).1,
             (evictHotAux (hotScanStep c v) n).2.1,
             (evictHotAux (hotScanStep c v) n).2.2 + 1) := by
          rw [evictHotAux]
          simp only [hh]
          simp [pref, hotScanStep]
          rw [hh]
          exact ⟨rfl, rfl, rfl⟩
        have hadv : (hotScanStep c v).hot = t ++ [v] := by
          dsimp only [hotScanStep]
          rw [hh]
          rfl
        have hs2 : SInv (hotScanStep c v) := by
          have hperm : List.Perm ((ringAdvance c.hot ++ c.cold) ++ c.meta)
              ((c.hot ++ c.cold) ++ c.meta) :=
            ((ringAdvance_perm c.hot).append_right c.cold).append_right c.meta
          refine {
            nodupAll := hperm.nodup_iff.mpr hs.nodupAll
            hotState := ?_
            coldState := ?_
            metaState := ?_
            mapRing := ?_
            mapKeys := hs.mapKeys
            fresh := ?_
            capPos := hs.capPos
            capSum := hs.capSum
            hotCapNN := hs.hotCapNN
            metaCapEq := hs.metaCapEq }
          · intro i hi
            dsimp only [hotScanStep] at hi ⊢
            have hi' : i ∈ c.hot := mem_ringAdvance.mp hi
            by_cases he : i = v
            · subst he
              rw [updFn_same]
              exact hs.hotState i hi'
            · rw [updFn_ne _ _ _ he]
              exact hs.hotState i hi'
          · intro i hi
            dsimp only [hotScanStep] at hi ⊢
            have hne2 : i ≠ v := fun he => hvcold (he ▸ hi)
            rw [updFn_ne _ _ _ hne2]
            exact hs.coldState i hi
          · intro i hi
            dsimp only [hotScanStep] at hi ⊢
            have hne2 : i ≠ v := fun he => hvmeta (he ▸ hi)
            rw [updFn_ne _ _ _ hne2]
            exact hs.metaState i hi
          · intro e he
            dsimp only [hotScanStep] at he ⊢
            obtain ⟨hring, hkey⟩ := hs.mapRing e he
            refine ⟨?_, ?_⟩
            · rcases hring with hhh | hcc
              · exact Or.inl (mem_ringAdvance.mpr hhh)
              · exact Or.inr hcc
            · by_cases he2 : e.2 = v
              · rw [he2, updFn_same]
                rw [he2] at hkey
                exact hkey
              · rw [updFn_ne _ _ _ he2]
                exact hkey
          · intro i hi
            dsimp only [hotScanStep] at hi
            apply hs.fresh
            rcases List.mem_append.mp hi with hi' | hi'
            · rcases List.mem_append.mp hi' with hi'' | hi''
              · exact List.mem_append_left _
                  (List.mem_append_left _ (mem_ringAdvance.mp hi''))
              · exact List.mem_append_left _ (List.mem_append_right _ hi'')
            · exact List.mem_append_right _ hi'
        have hne2 : (hotScanStep c v).hot ≠ [] := by
          rw [hadv]
          simp
        have hcnt2 : refCount (hotScanStep c v) < n := by
          have hfe : (t.filter (fun i => ((updFn c.pages v
              { c.pages v with ref := false }) i).ref)) =
              (t.filter (fun i => (c.pages i).ref)) := by
            apply List.filter_congr
            intro i hi
            have hne3 : i ≠ v := fun he => hvt (he ▸ hi)
            rw [updFn_ne _ _ _ hne3]
          have h1 : refCount (hotScanStep c v) =
              (t.filter (fun i => (c.pages i).ref)).length := by
            unfold refCount
            rw [hadv]
            dsimp only [hotScanStep]
            rw [List.filter_append, hfe]
            simp [updFn_same]
          have h2 : refCount c = (t.filter (fun i => (c.pages i).ref)).length + 1 := by
            unfold refCount
            rw [hh]
            rw [List.filter_cons_of_pos (by simpa using pref)]
            simp
          omega
        obtain ⟨v', c', n', heq', hs', hhot', hcold', hmeta', hmcap', hcap', hnid', hmap',
            hlo', hhi'⟩ := ih (hotScanStep c v) hs2 hne2 hcnt2
        refine ⟨v', c', n' + 1, ?_, hs', ?_, ?_, ?_, ?_, ?_, ?_, ?_, ?_, ?_⟩
        · rw [hstep, heq']
        · have hl : (hotScanStep c v).hot.length = (v :: t).length := by
            rw [hadv]
            simp
          omega
        · exact hcold'
        · exact hmeta'
        · exact hmcap'
        · exact hcap'
        · exact hnid'
        · exact hmap'
        · exact hlo'
        · exact hhi'
      · -- victim found: remove it from the hot ring
        have prefF : (c.pages v).ref = false := by
          cases hx : (c.pages v).ref
          · rfl
          · exact absurd hx pref
        by_cases hcold : ((c.cold.length : Int) < c.coldCap)
        · -- demote into the cold ring
          have hstep : evictHotAux c (n + 1) =
              (some v, adaptHot (hotDemoteStep c v t) true, 1) := by
            rw [evictHotAux]
            simp only [hh]
            simp [prefF, ringAdvance_remove_head hvt, hcold, hotDemoteStep]
          have hs3 : SInv (hotDemoteStep c v t) := by
            refine {
              nodupAll := ?_
              hotState := ?_
              coldState := ?_
              metaState := ?_
              mapRing := ?_
              mapKeys := hs.mapKeys
              fresh := ?_
              capPos := hs.capPos
              capSum := hs.capSum
              hotCapNN := hs.hotCapNN
              metaCapEq := hs.metaCapEq }
            · dsimp only [hotDemoteStep]
              have p1 : List.Perm (t ++ ringInsert c.cold v) (v :: (t ++ c.cold)) :=
                ((ringInsert_perm c.cold v).append_left t).trans List.perm_middle
              have p2 := p1.append_right c.meta
              have h0 := hs.nodupAll
              rw [hh] at h0
              exact p2.nodup_iff.mpr h0
            · intro i hi
              dsimp only [hotDemoteStep] at hi ⊢
              have hne3 : i ≠ v := fun he => hvt (he ▸ hi)
              rw [updFn_ne _ _ _ hne3]
              exact hs.hotState i (by rw [hh]; exact List.mem_cons_of_mem _ hi)
            · intro i hi
              dsimp only [hotDemoteStep] at hi ⊢
              rcases mem_ringInsert.mp hi with he | hm
              · subst he
                rw [updFn_same]
                exact ⟨rfl, rfl, rfl⟩
              · have hne3 : i ≠ v := fun he => hvcold (he ▸ hm)
                rw [updFn_ne _ _ _ hne3]
                exact hs.coldState i hm
            · intro i hi
              dsimp only [hotDemoteStep] at hi ⊢
              have hne3 : i ≠ v := fun he => hvmeta (he ▸ hi)
              rw [updFn_ne _ _ _ hne3]
              exact hs.metaState i hi
            · intro e he
              dsimp only [hotDemoteStep] at he ⊢
              obtain ⟨hring, hkey⟩ := hs.mapRing e he
              by_cases he2 : e.2 = v
              · rw [he2, updFn_same]
                rw [he2] at hkey
                exact ⟨Or.inr (mem_ringInsert.mpr (Or.inl rfl)), hkey⟩
              · rw [updFn_ne _ _ _ he2]
                refine ⟨?_, hkey⟩
                rcases hring with hhh | hcc
                · left
                  rw [hh] at hhh
                  rcases List.mem_cons.mp hhh with he' | ht'
                  · exact absurd he' he2
                  · exact ht'
                · exact Or.inr (mem_ringInsert.mpr (Or.inr hcc))
            · intro i hi
              dsimp only [hotDemoteStep] at hi
              apply hs.fresh
              rcases List.mem_append.mp hi with hi' | hi'
              · rcases List.mem_append.mp hi' with hi'' | hi''
                · exact List.mem_append_left _
                    (List.mem_append_left _ (by rw [hh]; exact List.mem_cons_of_mem _ hi''))
                · rcases mem_ringInsert.mp hi'' with he | hm
                  · exact he ▸ List.mem_append_left _ (List.mem_append_left _ hvh)
                  · exact List.mem_append_left _ (List.mem_append_right _ hm)
              · exact List.mem_append_right _ hi'
          obtain ⟨g1, g2, g3, g4, g5, g6, g7, g8, g9, g10⟩ :=
            adaptHot_frame (hotDemoteStep c v t) true
          obtain ⟨glo, ghi⟩ := adaptHot_hotCap_true (hotDemoteStep c v t)
          refine ⟨v, adaptHot (hotDemoteStep c v t) true, 1, hstep,
            adaptHot_sinv hs3 true, ?_, ?_, ?_, ?_, ?_, ?_, ?_, ?_, ?_⟩
          · rw [g2]
            dsimp only [hotDemoteStep]
            simp
          · right
            rw [g3]
            show (ringInsert c.cold v).length = c.cold.length + 1
            simp
          · rw [g4]
            rfl
          · rw [g7]
            rfl
          · rw [g6]
            rfl
          · rw [g8]
            rfl
          · rw [g5]
            exact fun e he => he
          · exact glo
          · exact ghi
        · -- the cold ring is full: evict the page outright
          have hstep : evictHotAux c (n + 1) =
              (some v, hotDeleteStep c v t, 1) := by
            rw [evictHotAux]
            simp only [hh]
            simp [prefF, ringAdvance_remove_head hvt, hcold, hotDeleteStep]
          refine ⟨v, hotDeleteStep c v t, 1, hstep, ?_, ?_, Or.inl rfl, rfl, rfl, rfl, rfl,
            fun e he => mapDelete_subset he, le_refl _, le_max_left _ _⟩
          · have hsub : List.Sublist ((t ++ c.cold) ++ c.meta)
                ((c.hot ++ c.cold) ++ c.meta) := by
              rw [hh]
              exact ((List.Sublist.cons v (List.Sublist.refl t)).append_right
                c.cold).append_right c.meta
            refine {
              nodupAll := hsub.nodup hs.nodupAll
              hotState := fun i hi =>
                hs.hotState i (by rw [hh]; exact List.mem_cons_of_mem _ hi)
              coldState := hs.coldState
              metaState := hs.metaState
              mapRing := ?_
              mapKeys := mapDelete_keys_nodup hs.mapKeys _
              fresh := fun i hi => hs.fresh i (hsub.subset hi)
              capPos := hs.capPos
              capSum := hs.capSum
              hotCapNN := hs.hotCapNN
              metaCapEq := hs.metaCapEq }
            intro e he
            obtain ⟨hemem, hekey⟩ := mem_mapDelete.mp he
            obtain ⟨hring, hkey⟩ := hs.mapRing e hemem
            have hne3 : e.2 ≠ v := by
              intro hev
              exact hekey (by rw [← hkey, hev])
            refine ⟨?_, hkey⟩
            rcases hring with hhh | hcc
            · left
              rw [hh] at hhh
              rcases List.mem_cons.mp hhh with he' | ht'
              · exact absurd he' hne3
              · exact ht'
            · exact Or.inr hcc
          · dsimp only [hotDeleteStep]
            simp

lemma evictHot_spec {c : Clock K V} (hs : SInv c) (hne : c.hot ≠ []) :
    ∃ v c' n, evictHot c = (some v, c', n) ∧
      SInv c' ∧
      c'.hot.length + 1 = c.hot.length ∧
      (c'.cold.length = c.cold.length ∨ c'.cold.length = c.cold.length + 1) ∧
      c'.meta = c.meta ∧ c'.metaCap = c.metaCap ∧
      c'.capacity = c.capacity ∧ c'.nextId = c.nextId ∧
      (∀ e ∈ c'.pageMap, e ∈ c.pageMap) ∧
      c.hotCap ≤ c'.hotCap ∧ c'.hotCap ≤ max c.hotCap (c.capacity - 1) := by
  have hlen : 1 ≤ c.hot.length := by
    cases hx : c.hot with
    | nil => exact absurd hx hne
    | cons a b => simp
  have hcnt : refCount c < 2 * c.hot.length := by
    have := refCount_le c
    omega
  exact evictHotAux_spec (2 * c.hot.length) c hs hne hcnt

/-! ## Behaviour of `makeSpace` under the invariant -/

lemma makeSpaceAux_spec : ∀ (fuel : Nat) (c : Clock K V), SInv c → MetaB c →
    2 * c.hot.length + c.cold.length < fuel →
    SInv (makeSpaceAux c fuel) ∧ MetaB (makeSpaceAux c fuel) ∧
    ((makeSpaceAux c fuel).hot.length + (makeSpaceAux c fuel).cold.length : Int) <
      (makeSpaceAux c fuel).capacity ∧
    (makeSpaceAux c fuel).capacity = c.capacity ∧
    (makeSpaceAux c fuel).nextId = c.nextId ∧
    (∀ e ∈ (makeSpaceAux c fuel).pageMap, e ∈ c.pageMap) := by
  intro fuel
  induction fuel with
  | zero => intro c _ _ habs; omega
  | succ n ih =>
    intro c hs hmB hfuel
    rw [makeSpaceAux]
    by_cases hg : ((c.hot.length + c.cold.length : Int) ≥ c.capacity)
    · rw [if_pos hg]
      by_cases hcln : c.cold.length > 0
      · rw [if_pos hcln]
        cases hcc : c.cold with
        | nil => rw [hcc] at hcln; simp at hcln
        | cons v t =>
          obtain ⟨c', heq, hs', hmB', hhot', hcold', hcap', hhc', hcc', hmc', hnid', hmap',
            htst', hstt'⟩ := evictCold_spec hs hcc
          simp only [heq]
          have hmeas : 2 * c'.hot.length + c'.cold.length < n := by
            rw [hhot', hcold']
            rw [hcc] at hfuel
            simp at hfuel
            omega
          obtain ⟨r1, r2, r3, r4, r5, r6⟩ := ih c' hs' hmB' hmeas
          refine ⟨r1, r2, r3, ?_, ?_, ?_⟩
          · rw [r4, hcap']
          · rw [r5, hnid']
          · exact fun e he => hmap' e (r6 e he)
      · rw [if_neg hcln]
        have hcold0 : c.cold.length = 0 := by omega
        by_cases hhln : c.hot.length > 0
        · rw [if_pos hhln]
          have hne : c.hot ≠ [] := by
            intro hx
            rw [hx] at hhln
            simp at hhln
          obtain ⟨v, c', sn, heq, hs', hhot', hcold', hmeta', hmcap', hcap', hnid', hmap',
            hlo', hhi'⟩ := evictHot_spec hs hne
          simp only [heq]
          have hmB' : MetaB c' := by
            unfold MetaB at hmB ⊢
            rw [hmeta', hmcap']
            exact hmB
          have hmeas : 2 * c'.hot.length + c'.cold.length < n := by
            rcases hcold' with hcl | hcl <;> omega
          obtain ⟨r1, r2, r3, r4, r5, r6⟩ := ih c' hs' hmB' hmeas
          refine ⟨r1, r2, r3, ?_, ?_, ?_⟩
          · rw [r4, hcap']
          · rw [r5, hnid']
          · exact fun e he => hmap' e (r6 e he)
        · exfalso
          have h1 := hs.capPos
          have h2 : c.hot.length = 0 := by omega
          rw [h2, hcold0] at hg
          simp at hg
          omega
    · rw [if_neg hg]
      exact ⟨hs, hmB, by omega, rfl, rfl, fun e he => he⟩

lemma makeSpace_spec {c : Clock K V} (hs : SInv c) (hmB : MetaB c) :
    SInv (makeSpace c) ∧ MetaB (makeSpace c) ∧
    ((makeSpace c).hot.length + (makeSpace c).cold.length : Int) < (makeSpace c).capacity ∧
    (makeSpace c).capacity = c.capacity ∧
    (makeSpace c).nextId = c.nextId ∧
    (∀ e ∈ (makeSpace c).pageMap, e ∈ c.pageMap) :=
  makeSpaceAux_spec (2 * c.hot.length + c.cold.length + 1) c hs hmB (by omega)

/-! ## Behaviour of `resize` under the invariant -/

lemma resizeLoop_spec (size : Int) (hsz : 1 ≤ size) : ∀ (fuel : Nat) (c : Clock K V),
    SInv c → 2 * c.hot.length + c.cold.length < fuel →
    SInv (resizeLoop size c fuel) ∧
    ((resizeLoop size c fuel).hot.length + (resizeLoop size c fuel).cold.length : Int) ≤ size ∧
    (resizeLoop size c fuel).capacity = c.capacity ∧
    (resizeLoop size c fuel).nextId = c.nextId ∧
    (∀ e ∈ (resizeLoop size c fuel).pageMap, e ∈ c.pageMap) ∧
    c.hotCap ≤ (resizeLoop size c fuel).hotCap ∧
    (resizeLoop size c fuel).hotCap ≤ max c.hotCap (c.capacity - 1) := by
  intro fuel
  induction fuel with
  | zero => intro c _ habs; omega
  | succ n ih =>
    intro c hs hfuel
    rw [resizeLoop]
    by_cases hg : ((c.hot.length + c.cold.length : Int) > size)
    · rw [if_pos hg]
      by_cases hcln : c.cold.length > 0
      · rw [if_pos hcln]
        cases hcc : c.cold with
        | nil => rw [hcc] at hcln; simp at hcln
        | cons v t =>
          obtain ⟨c', heq, hs', hmB', hhot', hcold', hcap', hhc', hcc', hmc', hnid', hmap',
            htst', hstt'⟩ := evictCold_spec hs hcc
          simp only [heq]
          have hmeas : 2 * c'.hot.length + c'.cold.length < n := by
            rw [hhot', hcold']
            rw [hcc] at hfuel
            simp at hfuel
            omega
          obtain ⟨r1, r2, r3, r4, r5, r6, r7⟩ := ih c' hs' hmeas
          refine ⟨r1, r2, ?_, ?_, ?_, ?_, ?_⟩
          · rw [r3, hcap']
          · rw [r4, hnid']
          · exact fun e he => hmap' e (r5 e he)
          · rw [← hhc']
            exact r6
          · rw [hhc'] at r7
            rw [hcap'] at r7
            exact r7
      · rw [if_neg hcln]
        have hcold0 : c.cold.length = 0 := by omega
        by_cases hhln : c.hot.length > 0
        · rw [if_pos hhln]
          have hne : c.hot ≠ [] := by
            intro hx
            rw [hx] at hhln
            simp at hhln
          obtain ⟨v, c', sn, heq, hs', hhot', hcold', hmeta', hmcap', hcap', hnid', hmap',
            hlo', hhi'⟩ := evictHot_spec hs hne
          simp only [heq]
          have hmeas : 2 * c'.hot.length + c'.cold.length < n := by
            rcases hcold' with hcl | hcl <;> omega
          obtain ⟨r1, r2, r3, r4, r5, r6, r7⟩ := ih c' hs' hmeas
          refine ⟨r1, r2, ?_, ?_, ?_, ?_, ?_⟩
          · rw [r3, hcap']
          · rw [r4, hnid']
          · exact fun e he => hmap' e (r5 e he)
          · exact le_trans hlo' r6
          · rw [hcap'] at r7
            omega
        · exfalso
          have h2 : c.hot.length = 0 := by omega
          rw [h2, hcold0] at hg
          simp at hg
          omega
    · rw [if_neg hg]
      exact ⟨hs, by omega, rfl, rfl, fun e he => he, le_refl _, le_max_left _ _⟩

/-- The new hot budget computed by `resize`: the old fixed-point hot
ratio scaled onto the new size, raised to 1 when zero, then capped at
`size - 1`. -/
def resizeHotCap (c : Clock K V) (size : Int) : Int :=
  let ratio := Int.tdiv (c.hotCap * 1000) c.capacity
  let nh0 := Int.tdiv (size * ratio) 1000
  let nh1 := if nh0 = 0 then 1 else nh0
  if nh1 ≥ size then size - 1 else nh1

/-- The capacity-recompute state at the head of `resize` (before the
eviction loop and the meta trim). -/
def resizeRecap (c : Clock K V) (size : Int) : Clock K V :=
  { c with
      capacity := size
      hotCap := resizeHotCap c size
      coldCap := size - resizeHotCap c size
      metaCap := size }

lemma resize_eq (c : Clock K V) (size0 : Int) :
    resize c size0 =
      trimMeta (resizeLoop (if size0 ≤ 0 then 1 else size0)
        (resizeRecap c (if size0 ≤ 0 then 1 else size0))
        (2 * c.hot.length + c.cold.length + 1)) := by
  unfold resize resizeRecap resizeHotCap
  dsimp only

lemma resizeHotCap_nonneg {c : Clock K V} (hNN : 0 ≤ c.hotCap) (hpos : 1 ≤ c.capacity)
    {size : Int} (hsz : 1 ≤ size) : 0 ≤ resizeHotCap c size := by
  have hr : 0 ≤ Int.tdiv (c.hotCap * 1000) c.capacity :=
    Int.tdiv_nonneg (by positivity) (by omega)
  have h0 : 0 ≤ Int.tdiv (size * Int.tdiv (c.hotCap * 1000) c.capacity) 1000 :=
    Int.tdiv_nonneg (mul_nonneg (by omega) hr) (by norm_num)
  unfold resizeHotCap
  dsimp only
  split_ifs <;> omega

lemma resizeHotCap_bounds {c : Clock K V} (hNN : 0 ≤ c.hotCap) (hpos : 1 ≤ c.capacity)
    {size : Int} (hsz : 2 ≤ size) :
    1 ≤ resizeHotCap c size ∧ resizeHotCap c size ≤ size - 1 := by
  have hr : 0 ≤ Int.tdiv (c.hotCap * 1000) c.capacity :=
    Int.tdiv_nonneg (by positivity) (by omega)
  have h0 : 0 ≤ Int.tdiv (size * Int.tdiv (c.hotCap * 1000) c.capacity) 1000 :=
    Int.tdiv_nonneg (mul_nonneg (by omega) hr) (by norm_num)
  unfold resizeHotCap
  dsimp only
  constructor <;> split_ifs <;> omega

lemma resizeRecap_sinv {c : Clock K V} (hs : SInv c) {size : Int} (hsz : 1 ≤ size) :
    SInv (resizeRecap c size) := by
  have hNN := resizeHotCap_nonneg hs.hotCapNN hs.capPos hsz
  exact {
    nodupAll := hs.nodupAll
    hotState := hs.hotState
    coldState := hs.coldState
    metaState := hs.metaState
    mapRing := hs.mapRing
    mapKeys := hs.mapKeys
    fresh := hs.fresh
    capPos := hsz
    capSum := by dsimp only [resizeRecap]; omega
    hotCapNN := hNN
    metaCapEq := rfl }

lemma resize_spec {c : Clock K V} (hs : SInv c) (size0 : Int) :
    SInv (resize c size0) ∧ MetaB (resize c size0) ∧ ResB (resize c size0) ∧
    (resize c size0).nextId = c.nextId ∧
    (∀ e ∈ (resize c size0).pageMap, e ∈ c.pageMap) ∧
    (resize c size0).capacity = (if size0 ≤ 0 then 1 else size0) ∧
    (resize c size0).metaCap = (if size0 ≤ 0 then 1 else size0) ∧
    resizeHotCap c (if size0 ≤ 0 then 1 else size0) ≤ (resize c size0).hotCap ∧
    (resize c size0).hotCap ≤ max (resizeHotCap c (if size0 ≤ 0 then 1 else size0))
      ((if size0 ≤ 0 then 1 else size0) - 1) ∧
    (resize c size0).hotCap + (resize c size0).coldCap =
      (if size0 ≤ 0 then 1 else size0) := by
  set size := (if size0 ≤ 0 then 1 else size0) with hsize
  have hsz : 1 ≤ size := by rw [hsize]; split <;> omega
  have hs1 : SInv (resizeRecap c size) := resizeRecap_sinv hs hsz
  have hmeas : 2 * (resizeRecap c size).hot.length + (resizeRecap c size).cold.length <
      2 * c.hot.length + c.cold.length + 1 := by
    dsimp only [resizeRecap]
    omega
  obtain ⟨r1, r2, r3, r4, r5, r6, r7⟩ :=
    resizeLoop_spec size hsz (2 * c.hot.length + c.cold.length + 1) (resizeRecap c size)
      hs1 hmeas
  set rl := resizeLoop size (resizeRecap c size) (2 * c.hot.length + c.cold.length + 1)
    with hrl
  have heq : resize c size0 = trimMeta rl := by
    rw [resize_eq, ← hsize, ← hrl]
  obtain ⟨f1, f2, f3, f4, f5, f6, f7, f8, f9, f10⟩ := trimMeta_frame rl
  have hcapr : rl.capacity = size := by
    rw [r3]
    rfl
  have hmcEq : rl.metaCap = size := by
    rw [r1.metaCapEq, hcapr]
  have h0m : 0 ≤ rl.metaCap := by omega
  refine ⟨?_, ?_, ?_, ?_, ?_, ?_, ?_, ?_, ?_, ?_⟩
  · rw [heq]
    exact trimMeta_sinv r1
  · rw [heq]
    exact trimMeta_metaB rl h0m
  · rw [heq]
    unfold ResB
    rw [f1, f2, f4, hcapr]
    exact r2
  · rw [heq, f8, r4]
    rfl
  · rw [heq]
    intro e he
    exact r5 e (f9 e he)
  · rw [heq, f4, hcapr, hsize]
  · rw [heq, f7, hmcEq, hsize]
  · rw [heq, f5]
    exact r6
  · rw [heq, f5]
    have : (resizeRecap c size).hotCap = resizeHotCap c size := rfl
    rw [this] at r7
    have hc : (resizeRecap c size).capacity = size := rfl
    rw [hc] at r7
    exact r7
  · rw [heq, f5, f6]
    have := (trimMeta_sinv r1).capSum
    have h2 : (trimMeta rl).capacity = size := by rw [f4, hcapr]
    rw [f5, f6] at this
    omega

/-! ## The public operations preserve the invariant -/

lemma updFn_updFn (f : Nat → Page K V) (i : Nat) (p q : Page K V) :
    updFn (updFn f i p) i q = updFn f i q := by
  funext j
  unfold updFn
  split <;> rfl

/-- The promotion applied on a hit to a cold-resident test page: the page
record is replaced by `q`, and the page moves from the cold ring to the
hot ring. -/
def promoteStep (c : Clock K V) (i : Nat) (q : Page K V) : Clock K V :=
  { c with
      pages := updFn c.pages i q
      cold := ringRemove c.cold i
      hot := ringInsert c.hot i }

lemma Get_eq_none {c : Clock K V} {k : K} (hlk : mapLookup c.pageMap k = none) :
    Get c k = ((default, false), c) := by
  rw [Get, hlk]

lemma Get_eq_hot {c : Clock K V} {k : K} {i : Nat}
    (hlk : mapLookup c.pageMap k = some i)
    (hst : (c.pages i).state = PageState.hot) :
    Get c k = (((c.pages i).value, true),
      { c with pages := updFn c.pages i { c.pages i with ref := true } }) := by
  rw [Get, hlk]
  simp only [hst]

lemma Get_eq_promote {c : Clock K V} {k : K} {i : Nat}
    (hlk : mapLookup c.pageMap k = some i)
    (hst : (c.pages i).state = PageState.coldResident)
    (htst : (c.pages i).test = true) :
    Get c k = (((c.pages i).value, true),
      if ((promoteStep c i { c.pages i with
            state := PageState.hot, test := false, ref := true }).hot.length : Int) >
          (promoteStep c i { c.pages i with
            state := PageState.hot, test := false, ref := true }).hotCap then
        adaptHot (promoteStep c i { c.pages i with
          state := PageState.hot, test := false, ref := true }) false
      else promoteStep c i { c.pages i with
        state := PageState.hot, test := false, ref := true }) := by
  rw [Get, hlk]
  simp only [hst, htst, promoteStep]
  rfl

lemma Put_eq_new {c : Clock K V} {k : K} {v : V}
    (hlk : mapLookup c.pageMap k = none) :
    Put c k v =
      { makeSpace c with
          pages := updFn (makeSpace c).pages (makeSpace c).nextId
            { key := k, value := v, state := PageState.coldResident,
              ref := false, test := true }
          pageMap := (k, (makeSpace c).nextId) :: (makeSpace c).pageMap
          cold := ringInsert (makeSpace c).cold (makeSpace c).nextId
          nextId := (makeSpace c).nextId + 1 } := by
  rw [Put, hlk]

lemma Put_eq_hot {c : Clock K V} {k : K} {v : V} {i : Nat}
    (hlk : mapLookup c.pageMap k = some i)
    (hst : (c.pages i).state = PageState.hot) :
    Put c k v =
      { c with pages := updFn c.pages i { c.pages i with value := v, ref := true } } := by
  rw [Put, hlk]
  simp only [hst, updFn_updFn]

lemma Put_eq_promote {c : Clock K V} {k : K} {v : V} {i : Nat}
    (hlk : mapLookup c.pageMap k = some i)
    (hst : (c.pages i).state = PageState.coldResident)
    (htst : (c.pages i).test = true) :
    Put c k v =
      (if ((promoteStep c i { c.pages i with
            value := v, state := PageState.hot, test := false, ref := true }).hot.length : Int) >
          (promoteStep c i { c.pages i with
            value := v, state := PageState.hot, test := false, ref := true }).hotCap then
        adaptHot (promoteStep c i { c.pages i with
          value := v, state := PageState.hot, test := false, ref := true }) false
      else promoteStep c i { c.pages i with
        value := v, state := PageState.hot, test := false, ref := true }) := by
  rw [Put, hlk]
  simp only [hst, htst, promoteStep, updFn_updFn]
  simp

/-- Replacing one page record without changing its state, its key, or (for
cold-ring members) its flags preserves the structural invariant. -/
lemma pages_update_sinv {c : Clock K V} (hs : SInv c) {i : Nat} (q : Page K V)
    (hkey : q.key = (c.pages i).key)
    (hstq : q.state = (c.pages i).state)
    (htq : i ∈ c.cold → (q.test = true ∧ q.ref = false)) :
    SInv { c with pages := updFn c.pages i q } := by
  refine {
    nodupAll := hs.nodupAll
    hotState := ?_
    coldState := ?_
    metaState := ?_
    mapRing := ?_
    mapKeys := hs.mapKeys
    fresh := hs.fresh
    capPos := hs.capPos
    capSum := hs.capSum
    hotCapNN := hs.hotCapNN
    metaCapEq := hs.metaCapEq }
  · intro j hj
    dsimp only at hj ⊢
    by_cases he : j = i
    · subst he
      rw [updFn_same, hstq]
      exact hs.hotState j hj
    · rw [updFn_ne _ _ _ he]
      exact hs.hotState j hj
  · intro j hj
    dsimp only at hj ⊢
    by_cases he : j = i
    · subst he
      rw [updFn_same, hstq]
      obtain ⟨h1, _, _⟩ := hs.coldState j hj
      exact ⟨h1, (htq hj).1, (htq hj).2⟩
    · rw [updFn_ne _ _ _ he]
      exact hs.coldState j hj
  · intro j hj
    dsimp only at hj ⊢
    by_cases he : j = i
    · subst he
      rw [updFn_same, hstq]
      exact hs.metaState j hj
    · rw [updFn_ne _ _ _ he]
      exact hs.metaState j hj
  · intro e he
    dsimp only at he ⊢
    obtain ⟨hring, hk⟩ := hs.mapRing e he
    refine ⟨hring, ?_⟩
    by_cases he2 : e.2 = i
    · rw [he2, updFn_same, hkey, ← he2, hk]
    · rw [updFn_ne _ _ _ he2]
      exact hk

lemma pages_update_inv {c : Clock K V} (hInv : Inv c) {i : Nat} (q : Page K V)
    (hkey : q.key = (c.pages i).key)
    (hstq : q.state = (c.pages i).state)
    (htq : i ∈ c.cold → (q.test = true ∧ q.ref = false)) :
    Inv { c with pages := updFn c.pages i q } := by
  obtain ⟨hs, hrB, hmB⟩ := hInv
  exact ⟨pages_update_sinv hs q hkey hstq htq, hrB, hmB⟩

lemma promoteStep_sinv {c : Clock K V} (hs : SInv c) {i : Nat} (hic : i ∈ c.cold)
    (q : Page K V) (hq : q.state = PageState.hot)
    (hqk : q.key = (c.pages i).key) :
    SInv (promoteStep c i q) := by
  have hih : i ∉ c.hot := hs.cold_not_hot hic
  have him : i ∉ c.meta := hs.cold_not_meta hic
  refine {
    nodupAll := ?_
    hotState := ?_
    coldState := ?_
    metaState := ?_
    mapRing := ?_
    mapKeys := hs.mapKeys
    fresh := ?_
    capPos := hs.capPos
    capSum := hs.capSum
    hotCapNN := hs.hotCapNN
    metaCapEq := hs.metaCapEq }
  · dsimp only [promoteStep]
    have p1 : List.Perm ((ringInsert c.hot i ++ ringRemove c.cold i) ++ c.meta)
        ((i :: (c.hot ++ ringRemove c.cold i)) ++ c.meta) :=
      ((ringInsert_perm c.hot i).append_right (ringRemove c.cold i)).append_right c.meta
    refine p1.nodup_iff.mpr ?_
    have hsub : List.Sublist (ringRemove c.cold i) (c.cold) := ringRemove_sublist _ _
    have hn : ((c.hot ++ ringRemove c.cold i) ++ c.meta).Nodup := by
      refine List.Sublist.nodup ?_ hs.nodupAll
      exact ((hsub.append_left c.hot).append_right c.meta)
    rw [List.cons_append, List.nodup_cons]
    refine ⟨?_, hn⟩
    intro hmem
    rcases List.mem_append.mp hmem with h1 | h1
    · rcases List.mem_append.mp h1 with h2 | h2
      · exact hih h2
      · exact not_mem_ringRemove hs.coldNodup i h2
    · exact him h1
  · intro j hj
    dsimp only [promoteStep] at hj ⊢
    rcases mem_ringInsert.mp hj with he | hm
    · subst he
      rw [updFn_same]
      exact hq
    · have hne : j ≠ i := fun he => hih (he ▸ hm)
      rw [updFn_ne _ _ _ hne]
      exact hs.hotState j hm
  · intro j hj
    dsimp only [promoteStep] at hj ⊢
    have hne : j ≠ i := fun he => not_mem_ringRemove hs.coldNodup i (he ▸ hj)
    rw [updFn_ne _ _ _ hne]
    exact hs.coldState j (ringRemove_subset hj)
  · intro j hj
    dsimp only [promoteStep] at hj ⊢
    have hne : j ≠ i := fun he => him (he ▸ hj)
    rw [updFn_ne _ _ _ hne]
    exact hs.metaState j hj
  · intro e he
    dsimp only [promoteStep] at he ⊢
    obtain ⟨hring, hk⟩ := hs.mapRing e he
    constructor
    · by_cases he2 : e.2 = i
      · exact Or.inl (mem_ringInsert.mpr (Or.inl he2))
      · rcases hring with h1 | h1
        · exact Or.inl (mem_ringInsert.mpr (Or.inr h1))
        · exact Or.inr (mem_ringRemove_of_ne h1 he2)
    · by_cases he2 : e.2 = i
      · rw [he2, updFn_same, hqk, ← he2, hk]
      · rw [updFn_ne _ _ _ he2]
        exact hk
  · intro j hj
    dsimp only [promoteStep] at hj
    apply hs.fresh
    rcases List.mem_append.mp hj with h1 | h1
    · rcases List.mem_append.mp h1 with h2 | h2
      · rcases mem_ringInsert.mp h2 with he | hm
        · exact he ▸ List.mem_append_left _ (List.mem_append_right _ hic)
        · exact List.mem_append_left _ (List.mem_append_left _ hm)
      · exact List.mem_append_left _ (List.mem_append_right _ (ringRemove_subset h2))
    · exact List.mem_append_right _ h1

lemma promoteStep_inv {c : Clock K V} (hInv : Inv c) {i : Nat} (hic : i ∈ c.cold)
    (q : Page K V) (hq : q.state = PageState.hot)
    (hqk : q.key = (c.pages i).key) :
    Inv (promoteStep c i q) := by
  obtain ⟨hs, hrB, hmB⟩ := hInv
  refine ⟨promoteStep_sinv hs hic q hq hqk, ?_, hmB⟩
  unfold ResB at hrB ⊢
  dsimp only [promoteStep]
  have h1 : (ringRemove c.cold i).length + 1 = c.cold.length := length_ringRemove_mem hic
  rw [length_ringInsert]
  omega

lemma adaptHot_inv {c : Clock K V} (hInv : Inv c) (b : Bool) : Inv (adaptHot c b) := by
  obtain ⟨hs, hrB, hmB⟩ := hInv
  obtain ⟨g1, g2, g3, g4, g5, g6, g7, g8, g9, g10⟩ := adaptHot_frame c b
  refine ⟨adaptHot_sinv hs b, ?_, ?_⟩
  · unfold ResB at hrB ⊢
    rw [g2, g3, g6]
    exact hrB
  · unfold MetaB at hmB ⊢
    rw [g4, g7]
    exact hmB

lemma Get_inv {c : Clock K V} (hInv : Inv c) (k : K) : Inv (Get c k).2 := by
  obtain ⟨hs, hrB, hmB⟩ := hInv
  cases hlk : mapLookup c.pageMap k with
  | none =>
    rw [Get_eq_none hlk]
    exact ⟨hs, hrB, hmB⟩
  | some i =>
    obtain ⟨hring, hkey⟩ := hs.mapRing _ (mapLookup_mem hlk)
    rcases hring with hih | hic
    · have hst := hs.hotState i hih
      rw [Get_eq_hot hlk hst]
      exact pages_update_inv ⟨hs, hrB, hmB⟩ _ rfl rfl
        (fun hc => absurd hc (hs.hot_not_cold hih))
    · obtain ⟨hst, htst, _⟩ := hs.coldState i hic
      rw [Get_eq_promote hlk hst htst]
      dsimp only
      split
      · refine adaptHot_inv (promoteStep_inv ⟨hs, hrB, hmB⟩ hic _ ?_ ?_) false <;> rfl
      · refine promoteStep_inv ⟨hs, hrB, hmB⟩ hic _ ?_ ?_ <;> rfl

lemma Put_inv {c : Clock K V} (hInv : Inv c) (k : K) (v : V) : Inv (Put c k v) := by
  obtain ⟨hs, hrB, hmB⟩ := hInv
  cases hlk : mapLookup c.pageMap k with
  | none =>
    rw [Put_eq_new hlk]
    obtain ⟨m1, m2, m3, m4, m5, m6⟩ := makeSpace_spec hs hmB
    set c1 := makeSpace c with hc1
    have hkeys : ∀ e ∈ c1.pageMap, e.1 ≠ k := by
      intro e he
      exact (mapLookup_eq_none.mp hlk) e (m6 e he)
    have hfreshN : ∀ j ∈ c1.hot ++ c1.cold ++ c1.meta, j ≠ c1.nextId := by
      intro j hj he
      have := m1.fresh j hj
      omega
    refine ⟨?_, ?_, ?_⟩
    · refine {
        nodupAll := ?_
        hotState := ?_
        coldState := ?_
        metaState := ?_
        mapRing := ?_
        mapKeys := ?_
        fresh := ?_
        capPos := m1.capPos
        capSum := m1.capSum
        hotCapNN := m1.hotCapNN
        metaCapEq := m1.metaCapEq }
      · dsimp only
        have p1 : List.Perm ((c1.hot ++ ringInsert c1.cold c1.nextId) ++ c1.meta)
            ((c1.nextId :: (c1.hot ++ c1.cold)) ++ c1.meta) := by
          refine List.Perm.append_right c1.meta ?_
          exact (((ringInsert_perm c1.cold c1.nextId).append_left c1.hot).trans
            List.perm_middle)
        refine p1.nodup_iff.mpr ?_
        rw [List.cons_append, List.nodup_cons]
        refine ⟨?_, m1.nodupAll⟩
        intro hmem
        have : c1.nextId < c1.nextId := m1.fresh _ hmem
        omega
      · intro j hj
        dsimp only at hj ⊢
        have hne : j ≠ c1.nextId := hfreshN j (List.mem_append_left _ (List.mem_append_left _ hj))
        rw [updFn_ne _ _ _ hne]
        exact m1.hotState j hj
      · intro j hj
        dsimp only at hj ⊢
        rcases mem_ringInsert.mp hj with he | hm
        · subst he
          rw [updFn_same]
          exact ⟨rfl, rfl, rfl⟩
        · have hne : j ≠ c1.nextId :=
            hfreshN j (List.mem_append_left _ (List.mem_append_right _ hm))
          rw [updFn_ne _ _ _ hne]
          exact m1.coldState j hm
      · intro j hj
        dsimp only at hj ⊢
        have hne : j ≠ c1.nextId := hfreshN j (List.mem_append_right _ hj)
        rw [updFn_ne _ _ _ hne]
        exact m1.metaState j hj
      · intro e he
        dsimp only at he ⊢
        rcases List.mem_cons.mp he with he1 | he1
        · subst he1
          rw [updFn_same]
          exact ⟨Or.inr (mem_ringInsert.mpr (Or.inl rfl)), rfl⟩
        · obtain ⟨hring, hk⟩ := m1.mapRing e he1
          have hne : e.2 ≠ c1.nextId := by
            intro hev
            rcases hring with h1 | h1
            · exact hfreshN _ (List.mem_append_left _ (List.mem_append_left _ h1)) hev
            · exact hfreshN _ (List.mem_append_left _ (List.mem_append_right _ h1)) hev
          rw [updFn_ne _ _ _ hne]
          refine ⟨?_, hk⟩
          rcases hring with h1 | h1
          · exact Or.inl h1
          · exact Or.inr (mem_ringInsert.mpr (Or.inr h1))
      · dsimp only
        rw [List.map_cons, List.nodup_cons]
        refine ⟨?_, m1.mapKeys⟩
        intro hmem
        obtain ⟨e, hemem, heq⟩ := List.mem_map.mp hmem
        exact hkeys e hemem heq
      · intro j hj
        dsimp only at hj ⊢
        rcases List.mem_append.mp hj with h1 | h1
        · rcases List.mem_append.mp h1 with h2 | h2
          · have := m1.fresh j (List.mem_append_left _ (List.mem_append_left _ h2))
            omega
          · rcases mem_ringInsert.mp h2 with he | hm
            · omega
            · have := m1.fresh j (List.mem_append_left _ (List.mem_append_right _ hm))
              omega
        · have := m1.fresh j (List.mem_append_right _ h1)
          omega
    · unfold ResB
      dsimp only
      rw [length_ringInsert]
      push_cast at m3 ⊢
      omega
    · unfold MetaB at m2 ⊢
      exact m2
  | some i =>
    obtain ⟨hring, hkey⟩ := hs.mapRing _ (mapLookup_mem hlk)
    rcases hring with hih | hic
    · have hst := hs.hotState i hih
      rw [Put_eq_hot hlk hst]
      exact pages_update_inv ⟨hs, hrB, hmB⟩ _ rfl rfl
        (fun hc => absurd hc (hs.hot_not_cold hih))
    · obtain ⟨hst, htst, _⟩ := hs.coldState i hic
      rw [Put_eq_promote hlk hst htst]
      dsimp only
      split
      · refine adaptHot_inv (promoteStep_inv ⟨hs, hrB, hmB⟩ hic _ ?_ ?_) false <;> rfl
      · refine promoteStep_inv ⟨hs, hrB, hmB⟩ hic _ ?_ ?_ <;> rfl

lemma SetSize_inv {c : Clock K V} (hInv : Inv c) (n : Int) : Inv (SetSize c n) := by
  obtain ⟨hs, _, _⟩ := hInv
  obtain ⟨r1, r2, r3, _⟩ := resize_spec hs n
  exact ⟨r1, r3, r2⟩

lemma newClock_inv (n : Int) : Inv (newClock (K := K) (V := V) n) := by
  unfold newClock
  dsimp only
  set cap : Int := if n ≤ 0 then 1 else n with hcapdef
  have hcap : 1 ≤ cap := by rw [hcapdef]; split <;> omega
  have hdiv : 0 ≤ Int.tdiv cap 2 := Int.tdiv_nonneg (by omega) (by norm_num)
  refine ⟨?_, ?_, ?_⟩
  · exact {
      nodupAll := by simp
      hotState := by simp
      coldState := by simp
      metaState := by simp
      mapRing := by simp
      mapKeys := by simp
      fresh := by simp
      capPos := hcap
      capSum := by dsimp only; split <;> omega
      hotCapNN := by dsimp only; split <;> omega
      metaCapEq := rfl }
  · unfold ResB
    dsimp only
    simp
    omega
  · unfold MetaB
    dsimp only
    simp
    omega

lemma applyOp_inv {c : Clock K V} (hInv : Inv c) (op : Op K V) : Inv (applyOp c op) := by
  cases op with
  | get k => exact Get_inv hInv k
  | put k v => exact Put_inv hInv k v
  | setSize n => exact SetSize_inv hInv n

lemma runOps_inv {c : Clock K V} (hInv : Inv c) (ops : List (Op K V)) :
    Inv (runOps c ops) := by
  induction ops generalizing c with
  | nil => exact hInv
  | cons op rest ih => exact ih (applyOp_inv hInv op)

/-- Every reachable state satisfies the full invariant. -/
theorem reachable_inv {c : Clock K V} (h : Reachable c) : Inv c := by
  obtain ⟨n, ops, rfl⟩ := h
  exact runOps_inv (newClock_inv n) ops

/-! ## Step bounds of the eviction scans -/

lemma evictColdAux_steps_le : ∀ (fuel : Nat) (c : Clock K V),
    (evictColdAux c fuel).2.2 ≤ fuel := by
  intro fuel
  induction fuel with
  | zero => intro c; simp [evictColdAux]
  | succ n ih =>
    intro c
    rw [evictColdAux]
    split
    · simp
    · dsimp only
      split
      · dsimp only
        exact Nat.succ_le_succ (ih _)
      · split <;> simp

lemma evictHotAux_steps_le : ∀ (fuel : Nat) (c : Clock K V),
    (evictHotAux c fuel).2.2 ≤ fuel := by
  intro fuel
  induction fuel with
  | zero => intro c; simp [evictHotAux]
  | succ n ih =>
    intro c
    rw [evictHotAux]
    split
    · simp
    · dsimp only
      split
      · dsimp only
        exact Nat.succ_le_succ (ih _)
      · split <;> simp

/-- The state after `evictCold` gives a referenced cold page its second
chance: flag cleared, page promoted from the cold ring to the hot ring. -/
def coldScanStep (c : Clock K V) (v : Nat) : Clock K V :=
  { c with
      pages := updFn c.pages v { c.pages v with ref := false, state := PageState.hot }
      cold := ringRemove (ringAdvance c.cold) v
      hot := ringInsert c.hot v }

lemma evictColdAux_ref_step {c : Clock K V} {v : Nat} {t : List Nat}
    (hc : c.cold = v :: t) (href : (c.pages v).ref = true) (fuel : Nat) :
    evictColdAux c (fuel + 1) =
      ((evictColdAux (coldScanStep c v) fuel).1,
       (evictColdAux (coldScanStep c v) fuel).2.1,
       (evictColdAux (coldScanStep c v) fuel).2.2 + 1) := by
  rw [evictColdAux]
  simp only [hc]
  simp [href, coldScanStep]
  rw [hc]
  exact ⟨rfl, rfl, rfl⟩

lemma evictColdAux_allref : ∀ (fuel : Nat) (c : Clock K V), c.cold.Nodup →
    (∀ i ∈ c.cold, (c.pages i).ref = true) → c.cold.length ≤ fuel →
    (evictColdAux c fuel).1 = none := by
  intro fuel
  induction fuel with
  | zero => intro c _ _ _; rfl
  | succ n ih =>
    intro c hnd href hlen
    cases hcc : c.cold with
    | nil => rw [evictColdAux, hcc]
    | cons v t =>
      have hvt : v ∉ t := by
        rw [hcc] at hnd
        exact (List.nodup_cons.mp hnd).1
      have hrv : (c.pages v).ref = true :=
        href v (by rw [hcc]; exact List.mem_cons_self v t)
      rw [evictColdAux_ref_step hcc hrv n]
      dsimp only
      apply ih
      · show (ringRemove (ringAdvance c.cold) v).Nodup
        rw [hcc, ringAdvance_remove_head hvt]
        rw [hcc] at hnd
        exact (List.nodup_cons.mp hnd).2
      · intro i hi
        have hi' : i ∈ t := by
          rw [show (coldScanStep c v).cold = t from by
            dsimp only [coldScanStep]; rw [hcc, ringAdvance_remove_head hvt]] at hi
          exact hi
        have hne : i ≠ v := fun he => hvt (he ▸ hi')
        show ((updFn c.pages v _) i).ref = true
        rw [updFn_ne _ _ _ hne]
        exact href i (by rw [hcc]; exact List.mem_cons_of_mem _ hi')
      · show (ringRemove (ringAdvance c.cold) v).length ≤ n
        rw [hcc, ringAdvance_remove_head hvt]
        rw [hcc] at hlen
        simp at hlen
        omega

/-! ## No-op characterizations used by the growth claims -/

lemma resizeLoop_noop (size : Int) (fuel : Nat) (c : Clock K V)
    (h : ¬((c.hot.length + c.cold.length : Int) > size)) :
    resizeLoop size c fuel = c := by
  cases fuel <;> simp [resizeLoop, h]


/-- The state `Put` builds for a new key over the post-`makeSpace` state
`c1`: a fresh cold-resident test page, registered in the lookup table and
spliced into the cold ring. -/
def putNewStep (c1 : Clock K V) (k : K) (v : V) : Clock K V :=
  { c1 with
      pages := updFn c1.pages c1.nextId
        { key := k, value := v, state := PageState.coldResident, ref := false, test := true }
      pageMap := (k, c1.nextId) :: c1.pageMap
      cold := ringInsert c1.cold c1.nextId
      nextId := c1.nextId + 1 }

lemma Put_eq_new' {c : Clock K V} {k : K} {v : V}
    (hlk : mapLookup c.pageMap k = none) :
    Put c k v = putNewStep (makeSpace c) k v := by
  rw [Put_eq_new hlk]
  rfl

end ClockPro

namespace ClockPro

variable {K V : Type} [DecidableEq K] [Inhabited K] [Inhabited V]

/-! ## The claims -/

/-- C2: after every sequence of complete public operations on a cache
built by `New` with any capacity, `hot.size + cold.size ≤ capacity` and
`hotCap + coldCap = capacity`. -/
theorem C2_capacity_conservation (c : Clock K V) (h : Reachable c) :
    (c.hot.length + c.cold.length : Int) ≤ c.capacity ∧
    c.hotCap + c.coldCap = c.capacity := by
  obtain ⟨hs, hrB, hmB⟩ := reachable_inv h
  exact ⟨hrB, hs.capSum⟩

theorem C2_capacity_conservation_witness :
    ((runOps (newClock (K := Nat) (V := Nat) 1) [Op.put 0 1, Op.put 1 2]).hot.length +
      (runOps (newClock (K := Nat) (V := Nat) 1) [Op.put 0 1, Op.put 1 2]).cold.length : Int) ≤
      (runOps (newClock (K := Nat) (V := Nat) 1) [Op.put 0 1, Op.put 1 2]).capacity ∧
    (runOps (newClock (K := Nat) (V := Nat) 1) [Op.put 0 1, Op.put 1 2]).hotCap +
      (runOps (newClock (K := Nat) (V := Nat) 1) [Op.put 0 1, Op.put 1 2]).coldCap =
      (runOps (newClock (K := Nat) (V := Nat) 1) [Op.put 0 1, Op.put 1 2]).capacity :=
  C2_capacity_conservation _ ⟨1, [Op.put 0 1, Op.put 1 2], rfl⟩

/-- C3: from every reachable state, `Put k v` immediately followed by
`Get k` (no operation in between) returns `(v, true)`. -/
theorem C3_put_then_get (c : Clock K V) (h : Reachable c) (k : K) (v : V) :
    (Get (Put c k v) k).1 = (v, true) := by
  obtain ⟨hs, hrB, hmB⟩ := reachable_inv h
  cases hlk : mapLookup c.pageMap k with
  | none =>
    rw [Put_eq_new' hlk]
    have hlk1 : mapLookup (putNewStep (makeSpace c) k v).pageMap k =
        some (makeSpace c).nextId := mapLookup_cons_self _ _ _
    have hpg : (putNewStep (makeSpace c) k v).pages (makeSpace c).nextId =
        { key := k, value := v, state := PageState.coldResident,
          ref := false, test := true } := by
      show updFn _ _ _ _ = _
      rw [updFn_same]
    rw [Get_eq_promote hlk1 (by rw [hpg]) (by rw [hpg]), hpg]
  | some i =>
    obtain ⟨hring, hkey⟩ := hs.mapRing _ (mapLookup_mem hlk)
    rcases hring with hih | hic
    · have hst := hs.hotState i hih
      rw [Put_eq_hot hlk hst]
      set q : Page K V := { c.pages i with value := v, ref := true } with hq
      set s1 : Clock K V := { c with pages := updFn c.pages i q } with hs1
      have hlk1 : mapLookup s1.pageMap k = some i := hlk
      have hpg : s1.pages i = q := by
        rw [hs1]
        show updFn _ _ _ _ = _
        rw [updFn_same]
      rw [Get_eq_hot hlk1 (by rw [hpg, hq]; exact hst), hpg, hq]
    · obtain ⟨hst, htst, _⟩ := hs.coldState i hic
      rw [Put_eq_promote hlk hst htst]
      set X := promoteStep c i
        { c.pages i with value := v, state := PageState.hot, test := false, ref := true }
        with hX
      have hpgX : X.pages i =
          { c.pages i with value := v, state := PageState.hot, test := false, ref := true } := by
        rw [hX]
        show updFn _ _ _ _ = _
        rw [updFn_same]
      split
      · obtain ⟨g1, g2, g3, g4, g5, g6, g7, g8, g9, g10⟩ := adaptHot_frame X false
        have hlk1 : mapLookup (adaptHot X false).pageMap k = some i := by
          rw [g5]
          exact hlk
        have hpg : (adaptHot X false).pages i =
            { c.pages i with value := v, state := PageState.hot, test := false, ref := true } := by
          rw [g1, hpgX]
        rw [Get_eq_hot hlk1 (by rw [hpg]), hpg]
      · have hlk1 : mapLookup X.pageMap k = some i := hlk
        rw [Get_eq_hot hlk1 (by rw [hpgX]), hpgX]

theorem C3_put_then_get_witness :
    (Get (Put (newClock (K := Nat) (V := Nat) 2) 5 7) 5).1 = (7, true) :=
  C3_put_then_get (newClock 2) ⟨2, [], rfl⟩ 5 7

/-- C4: from a fresh cache of capacity 1, `Put a 1; Put b 2` leaves a
miss for `a` while `Get b` returns `(2, true)` (keys `a`, `b` taken as
`0`, `1`). -/
theorem C4_eviction_under_pressure :
    (Get (Put (Put (newClock (K := Nat) (V := Nat) 1) 0 1) 1 2) 0).1.2 = false ∧
    (Get ((Get (Put (Put (newClock (K := Nat) (V := Nat) 1) 0 1) 1 2) 0).2) 1).1 =
      (2, true) := by
  decide

/-- C1 (evaluation of the failing input): after `New 1; Put 0 1; Put 1 2`
the lookup table holds 1 key while the three rings hold 2 pages in total,
and the meta ring holds a page whose key is absent from the lookup
table — refuting both halves of the claimed table/ring consistency. -/
theorem C1_table_ring_divergence :
    (Put (Put (newClock (K := Nat) (V := Nat) 1) 0 1) 1 2).pageMap.length = 1 ∧
    (Put (Put (newClock (K := Nat) (V := Nat) 1) 0 1) 1 2).hot.length +
      (Put (Put (newClock (K := Nat) (V := Nat) 1) 0 1) 1 2).cold.length +
      (Put (Put (newClock (K := Nat) (V := Nat) 1) 0 1) 1 2).meta.length = 2 ∧
    (∃ i ∈ (Put (Put (newClock (K := Nat) (V := Nat) 1) 0 1) 1 2).meta,
      mapLookup (Put (Put (newClock (K := Nat) (V := Nat) 1) 0 1) 1 2).pageMap
        ((Put (Put (newClock (K := Nat) (V := Nat) 1) 0 1) 1 2).pages i).key = none) := by
  decide

/-- C5 (counterexample): resizing a fresh capacity-2 cache to capacity 1
leaves `hotCap = 0`, not a value clamped into `[1, newCapacity - 1]` as
claimed (which would require `1 ≤ hotCap`). -/
theorem C5_resize_counterexample :
    (SetSize (newClock (K := Nat) (V := Nat) 2) 1).hotCap = 0 ∧
    ¬(1 ≤ (SetSize (newClock (K := Nat) (V := Nat) 2) 1).hotCap) := by
  decide

/-- C5 (amended): `SetSize`/`resize` clamps the new capacity to at least
1 and then: sets `metaCap` to it and keeps `hotCap + coldCap` equal to
it; for a new capacity of at least 2 it leaves `hotCap` in
`[1, newCapacity - 1]`; for a new capacity of 1 it leaves `hotCap = 0`
and `coldCap = 1`; when no eviction is needed (residents fit in the new
capacity) `hotCap` is exactly the rescaled value `resizeHotCap`, which
for a new capacity of at least 2 equals the previous fixed-point hot
ratio scaled onto the new capacity and clamped into
`[1, newCapacity - 1]`. -/
theorem C5_resize_scaling_amended (c : Clock K V) (h : Reachable c) (n : Int) :
    (SetSize c n).metaCap = (if n ≤ 0 then 1 else n) ∧
    (SetSize c n).hotCap + (SetSize c n).coldCap = (if n ≤ 0 then 1 else n) ∧
    (2 ≤ n → 1 ≤ (SetSize c n).hotCap ∧ (SetSize c n).hotCap ≤ n - 1) ∧
    (n ≤ 1 → (SetSize c n).hotCap = 0 ∧ (SetSize c n).coldCap = 1) ∧
    ((c.hot.length + c.cold.length : Int) ≤ (if n ≤ 0 then 1 else n) →
      (SetSize c n).hotCap = resizeHotCap c (if n ≤ 0 then 1 else n)) ∧
    (2 ≤ n → resizeHotCap c n = max 1 (min (n - 1)
      (Int.tdiv (n * Int.tdiv (c.hotCap * 1000) c.capacity) 1000))) := by
  obtain ⟨hs, hrB, hmB⟩ := reachable_inv h
  obtain ⟨r1, r2, r3, r4, r5, r6, r7, r8, r9, r10⟩ := resize_spec hs n
  have hsz1 : 1 ≤ (if n ≤ 0 then 1 else n : Int) := by split <;> omega
  have hrt : 0 ≤ Int.tdiv (c.hotCap * 1000) c.capacity :=
    Int.tdiv_nonneg (mul_nonneg hs.hotCapNN (by norm_num)) (by have := hs.capPos; omega)
  simp only [SetSize]
  refine ⟨r7, r10, ?_, ?_, ?_, ?_⟩
  · intro h2
    have hn : (if n ≤ 0 then 1 else n : Int) = n := by split <;> omega
    rw [hn] at r8 r9
    obtain ⟨hb1, hb2⟩ := resizeHotCap_bounds hs.hotCapNN hs.capPos h2
    constructor
    · omega
    · have := max_le hb2 (le_refl (n - 1))
      omega
  · intro h1
    have h0le : 0 ≤ Int.tdiv ((if n ≤ 0 then 1 else n) *
        Int.tdiv (c.hotCap * 1000) c.capacity) 1000 :=
      Int.tdiv_nonneg (mul_nonneg (by omega) hrt) (by norm_num)
    have hrhc : resizeHotCap c (if n ≤ 0 then 1 else n) = 0 := by
      have hone : (if n ≤ 0 then 1 else n : Int) = 1 := by split <;> omega
      rw [hone]
      rw [hone] at h0le
      unfold resizeHotCap
      dsimp only
      split_ifs <;> omega
    rw [hrhc] at r8 r9
    have hone : (if n ≤ 0 then 1 else n : Int) = 1 := by split <;> omega
    rw [hone] at r9 r10
    constructor
    · have := max_le (le_refl (0 : Int)) (by omega : (1 : Int) - 1 ≤ 0)
      omega
    · omega
  · intro hres
    rw [resize_eq]
    have hnoop : resizeLoop (if n ≤ 0 then 1 else n)
        (resizeRecap c (if n ≤ 0 then 1 else n))
        (2 * c.hot.length + c.cold.length + 1) =
        resizeRecap c (if n ≤ 0 then 1 else n) := by
      apply resizeLoop_noop
      dsimp only [resizeRecap]
      omega
    rw [hnoop]
    have := (trimMeta_frame (resizeRecap c (if n ≤ 0 then 1 else n))).2.2.2.2.1
    rw [this]
    rfl
  · intro h2
    have h0le : 0 ≤ Int.tdiv (n * Int.tdiv (c.hotCap * 1000) c.capacity) 1000 :=
      Int.tdiv_nonneg (mul_nonneg (by omega) hrt) (by norm_num)
    unfold resizeHotCap
    dsimp only
    split_ifs <;> omega

theorem C5_resize_scaling_amended_witness :
    (SetSize (newClock (K := Nat) (V := Nat) 4) 6).metaCap =
      (if (6 : Int) ≤ 0 then 1 else 6) ∧
    1 ≤ (SetSize (newClock (K := Nat) (V := Nat) 4) 6).hotCap := by
  have h := C5_resize_scaling_amended (newClock (K := Nat) (V := Nat) 4) ⟨4, [], rfl⟩ 6
  exact ⟨h.1, (h.2.2.1 (by decide)).1⟩

/-- C6: one call to `evictCold` or `evictHot` performs at most
`2 × (ring size at entry)` hand advances (in particular it terminates —
the functions are total); a cold scan over a ring whose every entry has
its reference flag set finds no victim and returns `none`. -/
theorem C6_bounded_scan (c : Clock K V) :
    (evictCold c).2.2 ≤ 2 * c.cold.length ∧
    (evictHot c).2.2 ≤ 2 * c.hot.length ∧
    (c.cold.Nodup → (∀ i ∈ c.cold, (c.pages i).ref = true) →
      (evictCold c).1 = none) := by
  refine ⟨evictColdAux_steps_le _ c, evictHotAux_steps_le _ c, ?_⟩
  intro hnd href
  exact evictColdAux_allref _ c hnd href (by omega)

/-- A two-page cold ring whose pages all have the reference flag set,
used as the concrete input of the bounded-scan claim. -/
def allRefState : Clock Nat Nat :=
  { pages := fun _ =>
      { key := 0, value := 0, state := PageState.coldResident, ref := true, test := true }
    nextId := 2
    hot := []
    cold := [0, 1]
    meta := []
    pageMap := [(0, 0), (1, 1)]
    capacity := 2
    hotCap := 1
    coldCap := 1
    metaCap := 2 }

theorem C6_bounded_scan_witness :
    (evictCold allRefState).2.2 ≤ 2 * allRefState.cold.length ∧
    (evictHot allRefState).2.2 ≤ 2 * allRefState.hot.length ∧
    (evictCold allRefState).1 = none := by
  have h := C6_bounded_scan allRefState
  exact ⟨h.1, h.2.1, h.2.2 (by decide) (by decide)⟩

/-- C7: growing the capacity (`SetSize` with at least the current
capacity) removes nothing: the lookup table, the three rings and every
page record are unchanged, and every key in the lookup table still hits
with its stored value. -/
theorem C7_resize_growth_preserves (c : Clock K V) (h : Reachable c) (n : Int)
    (hgrow : c.capacity ≤ n) :
    (SetSize c n).pageMap = c.pageMap ∧
    (SetSize c n).hot = c.hot ∧
    (SetSize c n).cold = c.cold ∧
    (SetSize c n).meta = c.meta ∧
    (SetSize c n).pages = c.pages ∧
    (∀ (k : K) (i : Nat), mapLookup c.pageMap k = some i →
      (Get (SetSize c n) k).1 = ((c.pages i).value, true)) := by
  obtain ⟨hs, hrB, hmB⟩ := reachable_inv h
  have hn1 : 1 ≤ n := le_trans hs.capPos hgrow
  have hclamp : (if n ≤ 0 then 1 else n : Int) = n := by split <;> omega
  have heq : SetSize c n = resizeRecap c n := by
    rw [SetSize, resize_eq, hclamp]
    have hnoop : resizeLoop n (resizeRecap c n) (2 * c.hot.length + c.cold.length + 1) =
        resizeRecap c n := by
      apply resizeLoop_noop
      dsimp only [resizeRecap]
      unfold ResB at hrB
      omega
    rw [hnoop]
    apply trimMeta_noop
    show (c.meta.length : Int) ≤ n
    unfold MetaB at hmB
    have := hs.metaCapEq
    omega
  refine ⟨by rw [heq]; rfl, by rw [heq]; rfl, by rw [heq]; rfl, by rw [heq]; rfl,
    by rw [heq]; rfl, ?_⟩
  intro k i hlk
  rw [heq]
  obtain ⟨hring, hkey⟩ := hs.mapRing _ (mapLookup_mem hlk)
  have hlk1 : mapLookup (resizeRecap c n).pageMap k = some i := hlk
  rcases hring with hih | hic
  · have hst : ((resizeRecap c n).pages i).state = PageState.hot := hs.hotState i hih
    rw [Get_eq_hot hlk1 hst]
    rfl
  · obtain ⟨hst, htst, _⟩ := hs.coldState i hic
    have hst1 : ((resizeRecap c n).pages i).state = PageState.coldResident := hst
    have htst1 : ((resizeRecap c n).pages i).test = true := htst
    rw [Get_eq_promote hlk1 hst1 htst1]
    rfl

/-- The concrete state of the growth claim: a fresh capacity-2 cache
holding keys 10 and 20. -/
def growState : Clock Nat Nat :=
  runOps (newClock 2) [Op.put 10 1, Op.put 20 2]

theorem C7_resize_growth_preserves_witness :
    (Get (SetSize growState 5) 10).1 = (1, true) ∧
    (Get (SetSize growState 5) 20).1 = (2, true) := by
  have h := C7_resize_growth_preserves growState
    ⟨2, [Op.put 10 1, Op.put 20 2], rfl⟩ 5 (by decide)
  have h1 := h.2.2.2.2.2 10 0 (by decide)
  have h2 := h.2.2.2.2.2 20 1 (by decide)
  rw [show (growState.pages 0).value = 1 from by decide] at h1
  rw [show (growState.pages 1).value = 2 from by decide] at h2
  exact ⟨h1, h2⟩

/-- C8 (counterexample): `circularList.remove` called with a page whose
`elem` pointer is nil (a page that is not a member of the ring) returns
silently with the ring unchanged — it is tolerated as a no-op, not
signalled as an assertion failure. -/
theorem C8_remove_nonmember_counterexample :
    clRemove [0, 1] none = ([0, 1], none) := by
  decide

/-- C8 (amended): removing a page that carries no list element is
silently tolerated as a no-op — the ring is returned unchanged and no
failure of any kind occurs (`clRemove` is a total function). -/
theorem C8_remove_nonmember_amended (r : List Nat) :
    clRemove r none = (r, none) := rfl

/-- C9: in every reachable state, every page reachable through the
lookup table is `Hot` or `ColdResident`, never the non-resident
`stateCold` (so the ghost-hit branches of `Get`/`Put`/`touch` cannot
run), and `Get k` reports a hit exactly when `k` is in the lookup
table. -/
theorem C9_no_ghost_hits (c : Clock K V) (h : Reachable c) :
    (∀ (k : K) (i : Nat), mapLookup c.pageMap k = some i →
      (c.pages i).state ≠ PageState.cold) ∧
    (∀ k : K, (Get c k).1.2 = true ↔ (mapLookup c.pageMap k).isSome) := by
  obtain ⟨hs, hrB, hmB⟩ := reachable_inv h
  constructor
  · intro k i hlk
    obtain ⟨hring, _⟩ := hs.mapRing _ (mapLookup_mem hlk)
    rcases hring with hih | hic
    · rw [hs.hotState i hih]
      simp
    · rw [(hs.coldState i hic).1]
      simp
  · intro k
    cases hlk : mapLookup c.pageMap k with
    | none =>
      rw [Get_eq_none hlk]
      simp
    | some i =>
      obtain ⟨hring, _⟩ := hs.mapRing _ (mapLookup_mem hlk)
      rcases hring with hih | hic
      · rw [Get_eq_hot hlk (hs.hotState i hih)]
        simp
      · obtain ⟨hst, htst, _⟩ := hs.coldState i hic
        rw [Get_eq_promote hlk hst htst]
        simp

/-- The concrete state of the ghost-hit claim: a fresh capacity-2 cache
holding key 0. -/
def ghostState : Clock Nat Nat :=
  runOps (newClock 2) [Op.put 0 1]

theorem C9_no_ghost_hits_witness :
    (ghostState.pages 0).state ≠ PageState.cold ∧
    ((Get ghostState 0).1.2 = true ↔ (mapLookup ghostState.pageMap 0).isSome) := by
  have h := C9_no_ghost_hits ghostState ⟨2, [Op.put 0 1], rfl⟩
  exact ⟨h.1 0 0 (by decide), h.2 0⟩

/-- C10: in every reachable state every page of the cold ring has
`test = true` and `ref = false`; consequently `evictCold` on a non-empty
cold ring evicts the page under the hand at its first step (one hand
advance), moving it into the meta ring with its test flag cleared and
its state set to non-resident. -/
theorem C10_cold_flags_and_first_step_eviction (c : Clock K V) (h : Reachable c) :
    (∀ i ∈ c.cold, (c.pages i).test = true ∧ (c.pages i).ref = false) ∧
    (∀ (v : Nat) (t : List Nat), c.cold = v :: t →
      (evictCold c).1 = some v ∧
      (evictCold c).2.2 = 1 ∧
      v ∈ (evictCold c).2.1.meta ∧
      ((evictCold c).2.1.pages v).test = false ∧
      ((evictCold c).2.1.pages v).state = PageState.cold) := by
  obtain ⟨hs, hrB, hmB⟩ := reachable_inv h
  constructor
  · intro i hi
    obtain ⟨_, h1, h2⟩ := hs.coldState i hi
    exact ⟨h1, h2⟩
  · intro v t hc
    obtain ⟨c', heq, hs', hmB', hhot', hcold', hcap', hhc', hcc', hmc', hnid', hmap',
      htst', hstt'⟩ := evictCold_spec hs hc
    have hmem := evictCold_meta_mem hs hmB hc
    rw [heq] at hmem ⊢
    exact ⟨rfl, rfl, hmem, htst', hstt'⟩

/-- The concrete state of the cold-flags claim: a fresh capacity-2 cache
holding key 0 (cold ring `[0]`). -/
def coldFlagsState : Clock Nat Nat :=
  runOps (newClock 2) [Op.put 0 1]

theorem C10_cold_flags_witness :
    ((coldFlagsState.pages 0).test = true ∧ (coldFlagsState.pages 0).ref = false) ∧
    ((evictCold coldFlagsState).1 = some 0 ∧
     (evictCold coldFlagsState).2.2 = 1 ∧
     0 ∈ (evictCold coldFlagsState).2.1.meta ∧
     ((evictCold coldFlagsState).2.1.pages 0).test = false ∧
     ((evictCold coldFlagsState).2.1.pages 0).state = PageState.cold) := by
  have h := C10_cold_flags_and_first_step_eviction coldFlagsState ⟨2, [Op.put 0 1], rfl⟩
  exact ⟨h.1 0 (by decide), h.2 0 [] (by decide)⟩

end ClockPro
